import Mathlib

/-!
Verification of the netip-ts library (Address / AddressPrefix / AddressPort)
against its natural-language specification.

The TypeScript sources are shallowly embedded below:
  * a Uint8Array is a List Nat whose entries are < 256 (the bound is carried
    as a hypothesis where a theorem needs it);
  * a JS string is a Lean String / List Char;
  * a JS number that can be negative (prefix bits, port, mask length) is Int,
    a byte or index is Nat;
  * a method that can throw returns Option (none = the method throws);
  * the optional zone field (string or undefined) is modelled as a String,
    with "" standing for "absent": the code distinguishes undefined from ""
    only through JS truthiness, and both behave identically in every method
    (getZone returns "", toString appends nothing), so this quotient is
    observationally faithful.
-/

set_option maxHeartbeats 1000000
set_option maxRecDepth 100000

/-- Decimal/hex digit character, as produced by JS Number.prototype.toString:
0-9 then lowercase a-f. -/
def digitChar (n : Nat) : Char :=
  if n < 10 then Char.ofNat (48 + n) else Char.ofNat (87 + n)

/-- Division-loop of base-16 rendering, structurally recursive on a fuel
that only needs to exceed n (the quotient shrinks strictly each step). -/
def hexAux : Nat → Nat → List Char
  | 0, _ => []
  | fuel + 1, n =>
    if n < 16 then [digitChar n]
    else hexAux fuel (n / 16) ++ [digitChar (n % 16)]

/-- Chars of n written in base 16, lowercase, no leading zeros (JS
num.toString(16) for a nonnegative integer). -/
def natToHexChars (n : Nat) : List Char := hexAux (n + 1) n

/-- Division-loop of base-10 rendering, structurally recursive on a fuel
that only needs to exceed n. -/
def decAux : Nat → Nat → List Char
  | 0, _ => []
  | fuel + 1, n =>
    if n < 10 then [digitChar n]
    else decAux fuel (n / 10) ++ [digitChar (n % 10)]

/-- Chars of n written in base 10 (JS String(num) for a nonnegative integer). -/
def natToDecChars (n : Nat) : List Char := decAux (n + 1) n

/-- JS String(n) for a number holding an integer. -/
def jsNatRepr (n : Nat) : String := ⟨natToDecChars n⟩

/-- JS String(i) for a number holding an integer, possibly negative. -/
def jsIntRepr (i : Int) : String :=
  if i < 0 then "-" ++ jsNatRepr (-i).toNat else jsNatRepr i.toNat

/-- Is c an ASCII decimal digit. -/
def isDecDigit (c : Char) : Bool := '0' ≤ c ∧ c ≤ '9'

/-- Whitespace skipped by JS parseInt (the common StrWhiteSpace characters). -/
def jsWhitespace (c : Char) : Bool :=
  c = ' ' ∨ c = '\t' ∨ c = '\n' ∨ c = '\r' ∨ c = '\x0b' ∨ c = '\x0c'

/-- Value of a list of decimal digit chars, most significant first. -/
def decDigitsVal (l : List Char) : Nat :=
  l.foldl (fun acc c => acc * 10 + (c.toNat - 48)) 0

/-- JS parseInt(s, 10) over the chars of s: skip leading whitespace, optional
sign, then the longest prefix of decimal digits; NaN (none) when that prefix
is empty. -/
def jsParseIntChars (s : List Char) : Option Int :=
  let t := s.dropWhile jsWhitespace
  let signAndRest : Int × List Char :=
    match t with
    | '-' :: r => (-1, r)
    | '+' :: r => (1, r)
    | r => (1, r)
  let ds := signAndRest.2.takeWhile isDecDigit
  if ds = [] then none
  else some (signAndRest.1 * (decDigitsVal ds : Int))

/-- JS parseInt(s, 10). -/
def jsParseInt10 (s : String) : Option Int := jsParseIntChars s.data

/-- Hex value of a char, as accepted by the IPv6 parser (0-9, a-f, A-F). -/
def hexVal (c : Char) : Option Nat :=
  if '0' ≤ c ∧ c ≤ '9' then some (c.toNat - 48)
  else if 'a' ≤ c ∧ c ≤ 'f' then some (c.toNat - 97 + 10)
  else if 'A' ≤ c ∧ c ≤ 'F' then some (c.toNat - 65 + 10)
  else none

/-- An IP address: raw bytes (4 for IPv4, 16 for IPv6, anything else is the
invalid sentinel) and the optional zone ("" = absent). Mirrors class Address
of src/address.ts. -/
structure Address where
  addressBytes : List Nat
  zone : String := ""
deriving DecidableEq, Repr

/-- Address.isIPv4. -/
def Address.isIPv4 (a : Address) : Bool := a.addressBytes.length = 4

/-- Address.isIPv6. -/
def Address.isIPv6 (a : Address) : Bool := a.addressBytes.length = 16

/-- Address.isValid. -/
def Address.isValid (a : Address) : Bool :=
  a.addressBytes.length = 4 ∨ a.addressBytes.length = 16

/-- Address.bitLength: 32 for IPv4, 128 for IPv6, 0 otherwise. -/
def Address.bitLength (a : Address) : Nat :=
  if a.isIPv4 then 32 else if a.isIPv6 then 128 else 0

/-- Address.getZone: the zone or "" when absent. -/
def Address.getZone (a : Address) : String := a.zone

/-- Address.withZone: attaches a zone, but only to a 16-byte address;
otherwise returns the receiver unchanged. -/
def Address.withZone (a : Address) (zone : String) : Address :=
  if ¬a.isIPv6 then a else ⟨a.addressBytes, zone⟩

/-- Address.toByteArray. -/
def Address.toByteArray (a : Address) : List Nat := a.addressBytes

/-- Address.isIPv4MappedIPv6: 16 bytes, first 10 zero, then 0xff 0xff. -/
def Address.isIPv4MappedIPv6 (a : Address) : Bool :=
  a.addressBytes.length = 16 ∧
  (∀ b ∈ a.addressBytes.take 10, b = 0) ∧
  a.addressBytes.getD 10 0 = 0xff ∧ a.addressBytes.getD 11 0 = 0xff

/-- The byte-wise comparison loop of Address.compare: compare common bytes
left to right, then shorter sorts before longer. -/
def compareBytes : List Nat → List Nat → Int
  | [], [] => 0
  | [], _ :: _ => -1
  | _ :: _, [] => 1
  | a :: as, b :: bs =>
    if a < b then -1 else if b < a then 1 else compareBytes as bs

/-- Address.compare. -/
def Address.compare (a other : Address) : Int :=
  compareBytes a.addressBytes other.addressBytes

/-- Address.lessThan. -/
def Address.lessThan (a other : Address) : Bool := a.compare other = -1

/-- The carry loop of Address.next, on the reversed (little-endian first)
byte list: none when every byte is 255 (the loop falls through). -/
def incRev : List Nat → Option (List Nat)
  | [] => none
  | b :: rest =>
    if b < 255 then some ((b + 1) :: rest)
    else (incRev rest).map (fun r => 0 :: r)

/-- The borrow loop of Address.previous, on the reversed byte list. -/
def decRev : List Nat → Option (List Nat)
  | [] => none
  | b :: rest =>
    if b > 0 then some ((b - 1) :: rest)
    else (decRev rest).map (fun r => 255 :: r)

/-- Address.next: add one big-endian with carry; the invalid sentinel when
the value is maximal. -/
def Address.next (a : Address) : Address :=
  match incRev a.addressBytes.reverse with
  | some r => ⟨r.reverse, a.zone⟩
  | none => ⟨[], ""⟩

/-- Address.previous: subtract one big-endian with borrow; the invalid
sentinel when the value is zero. -/
def Address.previous (a : Address) : Address :=
  match decRev a.addressBytes.reverse with
  | some r => ⟨r.reverse, a.zone⟩
  | none => ⟨[], ""⟩

/-- One iteration of the Address.mask loop at bit position i: clear bit
7 - i % 8 of byte i / 8 when i ≥ bits (Uint8Array entries stay < 256, so
the JS  bytes[j] &= ~(1 << k)  is the 8-bit clear below). -/
def maskStep (bits : Nat) (bytes : List Nat) (i : Nat) : List Nat :=
  if bits ≤ i then
    bytes.set (i / 8) (bytes.getD (i / 8) 0 &&& (255 ^^^ (1 <<< (7 - i % 8))))
  else bytes

/-- The Address.mask loop over bit positions 0, 1, ..., totalBits - 1. -/
def maskBytes (bytes : List Nat) (bits totalBits : Nat) : List Nat :=
  (List.range totalBits).foldl (maskStep bits) bytes

/-- Address.mask: none models the thrown range error. -/
def Address.mask (a : Address) (bits : Int) : Option Address :=
  let totalBits := a.bitLength
  if bits < 0 ∨ (totalBits : Int) < bits then none
  else if ¬a.isValid then some ⟨[], ""⟩
  else some ⟨maskBytes a.addressBytes bits.toNat totalBits, a.zone⟩

/-- Address.isPrivate. -/
def Address.isPrivate (a : Address) : Bool :=
  if a.isIPv4 then
    let first := a.addressBytes.getD 0 0
    let second := a.addressBytes.getD 1 0
    first = 10 ∨ (first = 172 ∧ 16 ≤ second ∧ second ≤ 31) ∨
      (first = 192 ∧ second = 168)
  else if a.isIPv6 then
    a.addressBytes.getD 0 0 = 0xfc ∨ a.addressBytes.getD 0 0 = 0xfd
  else false

/-- Address.isLoopback. -/
def Address.isLoopback (a : Address) : Bool :=
  if a.isIPv4 then a.addressBytes.getD 0 0 = 127
  else if a.isIPv6 then
    (∀ b ∈ a.addressBytes.take 15, b = 0) ∧ a.addressBytes.getD 15 0 = 1
  else false

/-- Address.isMulticast. -/
def Address.isMulticast (a : Address) : Bool :=
  if a.isIPv4 then a.addressBytes.getD 0 0 &&& 0xf0 = 0xe0
  else if a.isIPv6 then a.addressBytes.getD 0 0 = 0xff
  else false

/-- Address.isLinkLocalUnicast. -/
def Address.isLinkLocalUnicast (a : Address) : Bool :=
  if a.isIPv4 then
    a.addressBytes.getD 0 0 = 169 ∧ a.addressBytes.getD 1 0 = 254
  else if a.isIPv6 then
    a.addressBytes.getD 0 0 = 0xfe ∧ a.addressBytes.getD 1 0 &&& 0xc0 = 0x80
  else false

/-- Address.isUnspecified: every byte zero. -/
def Address.isUnspecified (a : Address) : Bool :=
  ∀ b ∈ a.addressBytes, b = 0

/-- Address.isGlobalUnicast, exactly as in the source: for IPv4 the negation
of private, unspecified, loopback and multicast; for IPv6 the negation of
unspecified, loopback, multicast and link-local unicast. -/
def Address.isGlobalUnicast (a : Address) : Bool :=
  if a.isIPv4 then
    ¬a.isPrivate ∧ ¬a.isUnspecified ∧ ¬a.isLoopback ∧ ¬a.isMulticast
  else if a.isIPv6 then
    ¬a.isUnspecified ∧ ¬a.isLoopback ∧ ¬a.isMulticast ∧ ¬a.isLinkLocalUnicast
  else false

/-- Address.fromIPv4Bytes: throws unless exactly 4 bytes. -/
def Address.fromIPv4Bytes (bytes : List Nat) : Option Address :=
  if bytes.length = 4 then some ⟨bytes, ""⟩ else none

/-- Address.fromIPv6Bytes: throws unless exactly 16 bytes. -/
def Address.fromIPv6Bytes (bytes : List Nat) : Option Address :=
  if bytes.length = 16 then some ⟨bytes, ""⟩ else none

/-- Address.fromByteArray: the pair (address, isValid). -/
def Address.fromByteArray (bytes : List Nat) : Option Address × Bool :=
  if bytes.length = 4 ∨ bytes.length = 16 then (some ⟨bytes, ""⟩, true)
  else (none, false)

/-- Address.ipv4Unspecified: 0.0.0.0. -/
def Address.ipv4Unspecified : Address := ⟨List.replicate 4 0, ""⟩

/-- Address.ipv6Unspecified: the all-zero 16-byte address. -/
def Address.ipv6Unspecified : Address := ⟨List.replicate 16 0, ""⟩

/-- Join pieces with a single-char separator (JS Array.prototype.join). -/
def joinChars (sep : Char) : List (List Char) → List Char
  | [] => []
  | [p] => p
  | p :: q :: rest => p ++ sep :: joinChars sep (q :: rest)

/-- Split on a single-char separator, keeping empty pieces
(JS String.prototype.split with a one-char separator). -/
def splitOnChar (sep : Char) : List Char → List (List Char)
  | [] => [[]]
  | c :: rest =>
    if c = sep then [] :: splitOnChar sep rest
    else
      match splitOnChar sep rest with
      | p :: ps => (c :: p) :: ps
      | [] => [[c]]

/-- Greedy repetition count of the regex piece (:0)* at the head of the
list: how many times ":0" repeats. -/
def countColonZeros : List Char → Nat
  | ':' :: '0' :: rest => countColonZeros rest + 1
  | _ => 0

/-- Match of the regex body 0(:0)*(:|$) at the head of the list, returning
the number of chars the (greedy, backtracking) match consumes. When the
greedy run cannot be closed by a colon or the end, one repetition is given
back, after which the next char is necessarily a colon. -/
def zeroRunBody : List Char → Option Nat
  | '0' :: rest =>
    let k := countColonZeros rest
    match rest.drop (2 * k) with
    | ':' :: _ => some (1 + 2 * k + 1)
    | [] => some (1 + 2 * k)
    | _ => if 0 < k then some (2 * k) else none
  | _ => none

/-- Scan for the leftmost colon-anchored match of (^|:)0(:0)*(:|$) and
replace it (colon alternative of the anchor: the colon is part of the
match). -/
def collapseScan : List Char → List Char
  | [] => []
  | c :: rest =>
    if c = ':' then
      match zeroRunBody rest with
      | some m => ':' :: ':' :: rest.drop m
      | none => c :: collapseScan rest
    else c :: collapseScan rest

/-- JS s.replace(re, "::") for re = (^|:)0(:0)*(:|$), non-global: the
leftmost match is replaced by "::". At position 0 the ^ alternative of the
anchor is tried first, then every position is tried left to right with the
colon alternative. -/
def collapseZeroRunChars (s : List Char) : List Char :=
  match zeroRunBody s with
  | some m => ':' :: ':' :: s.drop m
  | none => collapseScan s

/-- The hextet values of a 16-byte address: (b[i] << 8) | b[i+1] for even i. -/
def hexPairs : List Nat → List Nat
  | b1 :: b2 :: rest => ((b1 <<< 8) ||| b2) :: hexPairs rest
  | _ => []

/-- Address.toString: dotted decimal for IPv4; for IPv6 lowercase hextets
joined by ':' with the first zero run collapsed to "::", overridden by
::ffff:a.b.c.d for IPv4-mapped addresses, then %zone if a zone is present. -/
def Address.toString (a : Address) : String :=
  if a.isIPv4 then ⟨joinChars '.' (a.addressBytes.map natToDecChars)⟩
  else if a.isIPv6 then
    let parts := (hexPairs a.addressBytes).map natToHexChars
    let address := collapseZeroRunChars (joinChars ':' parts)
    let address2 :=
      if a.isIPv4MappedIPv6 then
        ':' :: ':' :: 'f' :: 'f' :: 'f' :: 'f' :: ':' ::
          joinChars '.' ((a.addressBytes.drop 12).map natToDecChars)
      else address
    let address3 := if a.zone ≠ "" then address2 ++ '%' :: a.zone.data else address2
    ⟨address3⟩
  else "invalid IP"

/-- The octet loop of the top-level IPv4 parser: parseInt each dotted part
in base 10, reject NaN and out-of-range values. Leading zeros are accepted
(parseInt reads them as decimal). -/
def parseIPv4Octets : List (List Char) → Option (List Nat)
  | [] => some []
  | part :: rest =>
    match jsParseIntChars part with
    | none => none
    | some num =>
      if num < 0 ∨ 255 < num then none
      else (parseIPv4Octets rest).map (fun ns => num.toNat :: ns)

/-- Address.parseIPv4Address: reject '%', require exactly four dotted
parts, each a decimal number in [0, 255]. -/
def Address.parseIPv4Address (input : String) : Option Address :=
  if input.data.contains '%' then none
  else
    let parts := splitOnChar '.' input.data
    if parts.length ≠ 4 then none
    else
      match parseIPv4Octets parts with
      | none => none
      | some bytes => some ⟨bytes, ""⟩

/-- The octet loop of Address.parseIPv4Fields (the embedded-IPv4 form inside
an IPv6 literal): empty octets and multi-digit octets with a leading zero
are rejected, unlike in the top-level IPv4 grammar. -/
def parseIPv4FieldOctets : List (List Char) → Option (List Nat)
  | [] => some []
  | part :: rest =>
    if part.length = 0 then none
    else if 1 < part.length ∧ part.head? = some '0' then none
    else
      match jsParseIntChars part with
      | none => none
      | some num =>
        if num < 0 ∨ 255 < num then none
        else (parseIPv4FieldOctets rest).map (fun ns => num.toNat :: ns)

/-- Address.parseIPv4Fields: the four bytes of the embedded IPv4 part. -/
def Address.parseIPv4FieldsChars (s : List Char) : Option (List Nat) :=
  let parts := splitOnChar '.' s
  if parts.length ≠ 4 then none
  else parseIPv4FieldOctets parts

/-- The hex-group scanner at the head of the IPv6 parser loop: accumulate
hex digits (at most four; a fifth hex digit is an error, as is a group with
no digits), returning the value, the number of digits and the rest of the
string. The acc > 0xffff test of the source is kept although four hex
digits can never exceed 0xffff. -/
def Address.parseHexRun (acc off : Nat) (s : List Char) :
    Option (Nat × Nat × List Char) :=
  match s with
  | [] => if off = 0 then none else some (acc, off, [])
  | c :: rest =>
    match hexVal c with
    | none => if off = 0 then none else some (acc, off, c :: rest)
    | some d =>
      if 3 < off then none
      else if 65535 < acc * 16 + d then none
      else Address.parseHexRun (acc * 16 + d) (off + 1) rest

/-- parseHexRun never lengthens the string. -/
theorem parseHexRun_rest_le (s : List Char) :
    ∀ acc off a o rest, Address.parseHexRun acc off s = some (a, o, rest) →
      rest.length ≤ s.length := by
  induction s with
  | nil =>
    intro acc off a o rest h
    by_cases h0 : off = 0
    · simp [Address.parseHexRun, h0] at h
    · simp only [Address.parseHexRun, h0, if_false, Option.some.injEq,
        Prod.mk.injEq] at h
      obtain ⟨rfl, rfl, rfl⟩ := h
      simp
  | cons c cs ih =>
    intro acc off a o rest h
    simp only [Address.parseHexRun] at h
    cases hv : hexVal c with
    | none =>
      rw [hv] at h
      by_cases h0 : off = 0
      · simp [h0] at h
      · simp only [h0, if_false, Option.some.injEq, Prod.mk.injEq] at h
        obtain ⟨rfl, rfl, rfl⟩ := h
        simp
    | some d =>
      rw [hv] at h
      by_cases h3 : 3 < off
      · simp [h3] at h
      · by_cases hb : 65535 < acc * 16 + d
        · simp [h3, hb] at h
        · simp only [h3, hb, if_false] at h
          have := ih _ _ _ _ _ h
          simp only [List.length_cons]
          omega

/-- With no digits consumed yet, a successful parseHexRun consumes at least
one char. -/
theorem parseHexRun_rest_lt (s : List Char) :
    ∀ acc a o rest, Address.parseHexRun acc 0 s = some (a, o, rest) →
      rest.length < s.length := by
  intro acc a o rest h
  cases s with
  | nil => simp [Address.parseHexRun] at h
  | cons c cs =>
    simp only [Address.parseHexRun] at h
    cases hv : hexVal c with
    | none => rw [hv] at h; simp at h
    | some d =>
      rw [hv] at h
      by_cases h3 : 3 < (0 : Nat)
      · omega
      · simp only [h3, if_false] at h
        by_cases hb : 65535 < acc * 16 + d
        · simp [hb] at h
        · simp only [hb, if_false] at h
          have := parseHexRun_rest_le cs _ _ _ _ _ h
          simp only [List.length_cons]
          omega

/-- The main loop of Address.parseIPv6Address, structurally recursive on a
fuel that only needs to exceed the length of s (every iteration consumes at
least one char). State: the unparsed chars, the bytes collected so far (the
loop index i of the source is acc.length) and the ellipsis position.
Returns the collected bytes, the final ellipsis position and the leftover
string (nonempty exactly when the loop left the string unconsumed, the
"trailing garbage" case). -/
def Address.v6Loop : Nat → List Char → List Nat → Option Nat →
    Option (List Nat × Option Nat × List Char)
  | 0, _, _, _ => none
  | fuel + 1, s, acc, ell =>
    if 16 ≤ acc.length then some (acc, ell, s)
    else
      match Address.parseHexRun 0 0 s with
      | none => none
      | some (a, _off, rest) =>
        if rest.head? = some '.' then
          if ell = none ∧ acc.length ≠ 12 then none
          else if 16 < acc.length + 4 then none
          else
            match Address.parseIPv4FieldsChars s with
            | none => none
            | some bs => some (acc ++ bs, ell, [])
        else
          let acc1 := acc ++ [a >>> 8, a &&& 255]
          match rest with
          | [] => some (acc1, ell, [])
          | c :: rest1 =>
            if c ≠ ':' then none
            else
              match rest1 with
              | [] => none
              | ':' :: rest2 =>
                if ell.isSome then none
                else if rest2 = [] then some (acc1, some acc1.length, [])
                else Address.v6Loop fuel rest2 acc1 (some acc1.length)
              | c2 :: rest2 => Address.v6Loop fuel (c2 :: rest2) acc1 ell

/-- The tail of Address.parseIPv6Address after the zone split and the
leading-ellipsis check: run the loop (with enough fuel for its input),
reject trailing garbage, then expand the ellipsis (or reject a redundant
one). -/
def Address.parseIPv6Tail (s : List Char) (acc : List Nat) (ell : Option Nat)
    (zone : String) : Option Address :=
  match Address.v6Loop (s.length + 1) s acc ell with
  | none => none
  | some (ip, ell2, leftover) =>
    if leftover ≠ [] then none
    else if ip.length < 16 then
      match ell2 with
      | none => none
      | some e =>
        some ⟨ip.take e ++ List.replicate (16 - ip.length) 0 ++ ip.drop e, zone⟩
    else if ell2.isSome then none
    else some ⟨ip, zone⟩

/-- Address.parseIPv6Address after the zone has been split off: a leading
"::" sets the ellipsis to 0 and a bare "::" is the unspecified address. -/
def Address.parseIPv6Main (s : List Char) (zone : String) : Option Address :=
  match s with
  | ':' :: ':' :: rest =>
    if rest = [] then some (Address.ipv6Unspecified.withZone zone)
    else Address.parseIPv6Tail rest [] (some 0) zone
  | _ => Address.parseIPv6Tail s [] none zone

/-- Address.parseIPv6Address: split the zone at the first '%' (a present
but empty zone is an error), then parse the hextets. -/
def Address.parseIPv6Address (inStr : String) : Option Address :=
  match inStr.data.findIdx? (fun c => c = '%') with
  | some zi =>
    let zone : String := ⟨inStr.data.drop (zi + 1)⟩
    if zone = "" then none
    else Address.parseIPv6Main (inStr.data.take zi) zone
  | none => Address.parseIPv6Main inStr.data ""

/-- Address.parseAddress: dispatch on the presence of ':' (IPv6) and
'.' (IPv4). -/
def Address.parseAddress (input : String) : Option Address :=
  if input.data.contains ':' then Address.parseIPv6Address input
  else if input.data.contains '.' then Address.parseIPv4Address input
  else none

/-- An address prefix (CIDR): an Address plus a prefix length. Mirrors class
AddressPrefix of src/address-prefix.ts. -/
structure AddressPrefix where
  address : Address
  bits : Int
deriving DecidableEq, Repr

/-- The AddressPrefix constructor: an out-of-range prefix length silently
becomes the sentinel -1 instead of failing. -/
def AddressPrefix.make (address : Address) (bits : Int) : AddressPrefix :=
  if bits < 0 ∨ (address.bitLength : Int) < bits then ⟨address, -1⟩
  else ⟨address, bits⟩

/-- AddressPrefix.from: goes through the constructor unchanged (named
fromParts here because from is reserved in Lean). -/
def AddressPrefix.fromParts (address : Address) (bits : Int) : AddressPrefix :=
  AddressPrefix.make address bits

/-- AddressPrefix.getBits: the prefix length, -1 when invalid. -/
def AddressPrefix.getBits (p : AddressPrefix) : Int := p.bits

/-- AddressPrefix.getAddress. -/
def AddressPrefix.getAddress (p : AddressPrefix) : Address := p.address

/-- AddressPrefix.isValid. -/
def AddressPrefix.isValid (p : AddressPrefix) : Bool :=
  p.address.isValid ∧ 0 ≤ p.bits ∧ p.bits ≤ (p.address.bitLength : Int)

/-- AddressPrefix.parsePrefix: split at "/" (the first two pieces), parse
the address (zones are not permitted), then the prefix length, which must
be a number within [0, bitLength]. -/
def AddressPrefix.parsePrefix (input : String) : Option AddressPrefix :=
  match splitOnChar '/' input.data with
  | ipPart :: bitsPart :: _ =>
    if bitsPart = [] then none
    else
      match Address.parseAddress ⟨ipPart⟩ with
      | none => none
      | some address =>
        if address.getZone ≠ "" then none
        else
          match jsParseIntChars bitsPart with
          | none => none
          | some bits =>
            if bits < 0 ∨ (address.bitLength : Int) < bits then none
            else some (AddressPrefix.make address bits)
  | _ => none

/-- AddressPrefix.isSingleIP. -/
def AddressPrefix.isSingleIP (p : AddressPrefix) : Bool :=
  if ¬p.isValid then false else p.bits = (p.address.bitLength : Int)

/-- AddressPrefix.contains: same family, then the top bits MSB-first must
agree (the loop returns false at the first disagreeing bit). -/
def AddressPrefix.contains (p : AddressPrefix) (ip : Address) : Bool :=
  if ¬p.isValid ∨ ¬ip.isValid then false
  else if p.address.bitLength ≠ ip.bitLength then false
  else
    (List.range p.bits.toNat).all (fun i =>
      let byteIndex := i / 8
      let mask := 1 <<< (7 - i % 8)
      p.address.addressBytes.getD byteIndex 0 &&& mask =
        ip.addressBytes.getD byteIndex 0 &&& mask)

/-- AddressPrefix.masked: the canonical form; the invalid prefix maps to the
invalid sentinel prefix instead of failing. The mask call cannot throw here
because validity puts bits in range. -/
def AddressPrefix.masked (p : AddressPrefix) : AddressPrefix :=
  if ¬p.isValid then AddressPrefix.make ⟨[], ""⟩ (-1)
  else
    match p.address.mask p.bits with
    | some maskedAddress => AddressPrefix.make maskedAddress p.bits
    | none => AddressPrefix.make ⟨[], ""⟩ (-1)

/-- AddressPrefix.overlaps: same family, then the two addresses masked to
min(bits, other.bits) must be equal. The mask calls cannot throw because
validity puts both bit counts in range. -/
def AddressPrefix.overlaps (p other : AddressPrefix) : Bool :=
  if ¬p.isValid ∨ ¬other.isValid then false
  else if p.address.bitLength ≠ other.address.bitLength then false
  else
    let minBits := min p.bits other.bits
    match p.address.mask minBits, other.address.mask minBits with
    | some thisMasked, some otherMasked => thisMasked.compare otherMasked = 0
    | _, _ => false

/-- AddressPrefix.toString: CIDR notation, "" when invalid. -/
def AddressPrefix.toString (p : AddressPrefix) : String :=
  if ¬p.isValid then "" else p.address.toString ++ "/" ++ jsIntRepr p.bits

/-- The BigInt accumulation loop of getRanges: bytes big-endian to an
unbounded natural. -/
def bytesToNatBE (l : List Nat) : Nat :=
  l.foldl (fun acc b => (acc <<< 8) ||| b) 0

/-- The re-encoding loop of getRanges: fill bytes from the last position
with value & 0xff, shifting right by 8 each step. -/
def natToBEBytes : Nat → Nat → List Nat
  | 0, _ => []
  | n + 1, v => natToBEBytes n (v >>> 8) ++ [v &&& 255]

/-- AddressPrefix.getRanges: none models the thrown error on an invalid
prefix. The first address is the masked address; the last adds
2^(bitLength - bits) - 1 with exact (BigInt) arithmetic and carries the
zone of the source address. -/
def AddressPrefix.getRanges (p : AddressPrefix) : Option (String × String) :=
  if ¬p.isValid then none
  else
    let totalBits := p.address.bitLength
    match p.address.mask p.bits with
    | none => none
    | some maskedAddress =>
      let remainingBits := totalBits - p.bits.toNat
      let maxHostValue := 2 ^ remainingBits - 1
      let addressBytes := maskedAddress.toByteArray
      let addressValue := bytesToNatBE addressBytes
      let endAddressValue := addressValue + maxHostValue
      let endBytes := natToBEBytes addressBytes.length endAddressValue
      let endAddress : Address := ⟨endBytes, p.address.getZone⟩
      some (maskedAddress.toString, endAddress.toString)

/-- An address and a port. Mirrors class AddressPort of src/address-port.ts. -/
structure AddressPort where
  ip : Address
  port : Int
deriving DecidableEq, Repr

/-- AddressPort.from (named fromParts here because from is reserved in
Lean): no validation at all. -/
def AddressPort.fromParts (ip : Address) (port : Int) : AddressPort :=
  ⟨ip, port⟩

/-- AddressPort.getAddress. -/
def AddressPort.getAddress (x : AddressPort) : Address := x.ip

/-- AddressPort.getPort. -/
def AddressPort.getPort (x : AddressPort) : Int := x.port

/-- AddressPort.isValid: the address must be valid; every port is valid. -/
def AddressPort.isValid (x : AddressPort) : Bool := x.ip.isValid

/-- AddressPort.toString: brackets exactly when the address is IPv6 and not
IPv4-mapped; "" when invalid. -/
def AddressPort.toString (x : AddressPort) : String :=
  if ¬x.isValid then ""
  else
    let ipStr := x.ip.toString
    if x.ip.isIPv6 ∧ ¬x.ip.isIPv4MappedIPv6 then
      "[" ++ ipStr ++ "]:" ++ jsIntRepr x.port
    else ipStr ++ ":" ++ jsIntRepr x.port

/-- JS String.prototype.lastIndexOf for a single char. -/
def lastIndexOfChar (c : Char) (l : List Char) : Option Nat :=
  match l.reverse.findIdx? (fun x => x = c) with
  | some i => some (l.length - 1 - i)
  | none => none

/-- AddressPort.parseAddrPort. A bracketed form takes the chars between
'[' and the first ']' as the address and everything two past the ']' as the
port (the char after ']' is never inspected); a non-bracketed form must
have exactly one colon, splitting at its last occurrence. The port must be
a number in [0, 65535]. -/
def AddressPort.parseAddrPort (input : String) : Option AddressPort :=
  let cs := input.data
  if ¬cs.contains ':' then none
  else
    let splitParts : Option (List Char × List Char) :=
      if cs.head? = some '[' then
        match cs.findIdx? (fun c => c = ']') with
        | none => none
        | some idx => some ((cs.drop 1).take (idx - 1), cs.drop (idx + 2))
      else
        if 1 < cs.countP (fun c => c = ':') then none
        else
          match lastIndexOfChar ':' cs with
          | some i => some (cs.take i, cs.drop (i + 1))
          | none => none
    match splitParts with
    | none => none
    | some (ipPart, portPart) =>
      match Address.parseAddress ⟨ipPart⟩ with
      | none => none
      | some ip =>
        match jsParseIntChars portPart with
        | none => none
        | some port =>
          if port < 0 ∨ 65535 < port then none
          else some ⟨ip, port⟩

/-! Bit-level view of a big-endian byte list, used to state what mask does:
position i, counted MSB-first across the layout, is bit 7 - i % 8 of byte
i / 8. -/

/-- The bit of a big-endian byte list at MSB-first position i. -/
def addrBit (bytes : List Nat) (i : Nat) : Bool :=
  (bytes.getD (i / 8) 0).testBit (7 - i % 8)

/-- maskStep preserves the byte count. -/
theorem maskStep_length (bits : Nat) (bytes : List Nat) (i : Nat) :
    (maskStep bits bytes i).length = bytes.length := by
  unfold maskStep
  split <;> simp

/-- A maskStep fold preserves the byte count. -/
theorem foldl_maskStep_length (bits : Nat) (l : List Nat) :
    ∀ bytes : List Nat, (l.foldl (maskStep bits) bytes).length = bytes.length := by
  induction l with
  | nil => intro bytes; rfl
  | cons i rest ih =>
    intro bytes
    simp only [List.foldl_cons]
    rw [ih, maskStep_length]

/-- maskBytes preserves the byte count. -/
theorem maskBytes_length (bytes : List Nat) (bits totalBits : Nat) :
    (maskBytes bytes bits totalBits).length = bytes.length :=
  foldl_maskStep_length bits (List.range totalBits) bytes

/-- getD after set at the same (in-range) index. -/
theorem getD_set_self (l : List Nat) (i : Nat) (v : Nat) (h : i < l.length) :
    (l.set i v).getD i 0 = v := by
  simp [List.getD_eq_getElem?_getD, List.getElem?_set_eq_of_lt v h]

/-- getD after set at a different index. -/
theorem getD_set_ne (l : List Nat) (i j : Nat) (v : Nat) (h : i ≠ j) :
    (l.set i v).getD j 0 = l.getD j 0 := by
  simp [List.getD_eq_getElem?_getD, List.getElem?_set_ne h]

/-- The byte-clear used by maskStep kills exactly the addressed bit of the
low 8 bits. -/
theorem testBit_clear (b m k : Nat) (hm : m < 8) (hk : k < 8) :
    (b &&& (255 ^^^ (1 <<< m))).testBit k = (b.testBit k && decide (k ≠ m)) := by
  rw [Nat.testBit_and, Nat.testBit_xor, Nat.one_shiftLeft]
  have h255 : (255 : Nat) = 2 ^ 8 - 1 := by norm_num
  rw [h255, Nat.testBit_two_pow_sub_one]
  rcases eq_or_ne k m with rfl | hne
  · simp [Nat.testBit_two_pow_self, hk]
  · rw [Nat.testBit_two_pow_of_ne (fun h => hne h.symm)]
    simp [hk, hne]

/-- Characterization of the mask loop, bit by bit: after folding positions
0, ..., n-1, bit k of byte j survives exactly when it survived in the
input and no processed position with bits ≤ position addressed it. -/
theorem maskBytes_testBit (bytes : List Nat) (bits : Nat) :
    ∀ n j k, j < bytes.length → k < 8 →
      (((maskBytes bytes bits n).getD j 0).testBit k =
        ((bytes.getD j 0).testBit k &&
          !decide (bits ≤ 8 * j + (7 - k) ∧ 8 * j + (7 - k) < n))) := by
  intro n
  induction n with
  | zero =>
    intro j k _ _
    simp [maskBytes]
  | succ n ih =>
    intro j k hj hk
    have hstep : maskBytes bytes bits (n + 1) =
        maskStep bits (maskBytes bytes bits n) n := by
      unfold maskBytes
      rw [List.range_succ, List.foldl_append, List.foldl_cons, List.foldl_nil]
    rw [hstep]
    unfold maskStep
    by_cases hbn : bits ≤ n
    · rw [if_pos hbn]
      have hlen : j < (maskBytes bytes bits n).length := by
        rw [maskBytes_length]; exact hj
      by_cases hj8 : n / 8 = j
      · subst hj8
        rw [getD_set_self _ _ _ hlen]
        rw [testBit_clear _ _ _ (by omega) hk]
        rw [ih _ _ hj hk]
        by_cases hkm : k = 7 - n % 8
        · subst hkm
          have h1 : (decide (7 - n % 8 ≠ 7 - n % 8)) = false := by simp
          rw [h1, Bool.and_false]
          have h2 : bits ≤ 8 * (n / 8) + (7 - (7 - n % 8)) ∧
              8 * (n / 8) + (7 - (7 - n % 8)) < n + 1 := by omega
          simp [h2]
        · have hx : 8 * (n / 8) + (7 - k) ≠ n := by omega
          have hiff : (bits ≤ 8 * (n / 8) + (7 - k) ∧ 8 * (n / 8) + (7 - k) < n + 1) ↔
              (bits ≤ 8 * (n / 8) + (7 - k) ∧ 8 * (n / 8) + (7 - k) < n) := by omega
          simp only [hiff]
          have : decide (k ≠ 7 - n % 8) = true := by simp [hkm]
          rw [this, Bool.and_true]
      · rw [getD_set_ne _ _ _ _ hj8]
        rw [ih _ _ hj hk]
        have hx : 8 * j + (7 - k) ≠ n := by omega
        have hiff : (bits ≤ 8 * j + (7 - k) ∧ 8 * j + (7 - k) < n + 1) ↔
            (bits ≤ 8 * j + (7 - k) ∧ 8 * j + (7 - k) < n) := by omega
        simp only [hiff]
    · rw [if_neg hbn]
      rw [ih _ _ hj hk]
      have hiff : (bits ≤ 8 * j + (7 - k) ∧ 8 * j + (7 - k) < n + 1) ↔
          (bits ≤ 8 * j + (7 - k) ∧ 8 * j + (7 - k) < n) := by omega
      simp only [hiff]

/-- mask fails exactly on an out-of-range bit count. -/
theorem mask_eq_none_iff (a : Address) (bits : Int) :
    Address.mask a bits = none ↔ (bits < 0 ∨ (a.bitLength : Int) < bits) := by
  unfold Address.mask
  by_cases h : bits < 0 ∨ (a.bitLength : Int) < bits
  · simp [h]
  · simp only [h, if_false, iff_false]
    split <;> simp

/-- mask on a valid address in range returns the masked bytes with the
zone preserved. -/
theorem mask_eq_some (a : Address) (bits : Int) (hv : a.isValid = true)
    (h0 : 0 ≤ bits) (hle : bits ≤ (a.bitLength : Int)) :
    Address.mask a bits =
      some ⟨maskBytes a.addressBytes bits.toNat a.bitLength, a.zone⟩ := by
  unfold Address.mask
  have h : ¬(bits < 0 ∨ (a.bitLength : Int) < bits) := by omega
  simp [h, hv]

/-- A valid address has 8 bits per byte. -/
theorem bitLength_eq (a : Address) (hv : a.isValid = true) :
    a.bitLength = 8 * a.addressBytes.length := by
  unfold Address.bitLength Address.isIPv4 Address.isIPv6
  unfold Address.isValid at hv
  simp only [decide_eq_true_eq] at hv
  rcases hv with h | h <;> simp [h]

/-- C3: Address.mask(bits) throws a range error exactly when bits < 0 or
bits > bitLength(a); for every valid address and in-range bits the result
keeps the byte length, clears every MSB-first bit position at or past bits
and leaves every earlier position unchanged. -/
theorem claim_C3_mask (a : Address) (bits : Int) :
    (Address.mask a bits = none ↔ (bits < 0 ∨ (a.bitLength : Int) < bits)) ∧
    (a.isValid = true → 0 ≤ bits → bits ≤ (a.bitLength : Int) →
      ∃ m, Address.mask a bits = some m ∧
        m.addressBytes.length = a.addressBytes.length ∧
        ∀ i < a.bitLength,
          (bits ≤ (i : Int) → addrBit m.addressBytes i = false) ∧
          ((i : Int) < bits → addrBit m.addressBytes i = addrBit a.addressBytes i)) := by
  constructor
  · exact mask_eq_none_iff a bits
  · intro hv h0 hle
    refine ⟨⟨maskBytes a.addressBytes bits.toNat a.bitLength, a.zone⟩,
      mask_eq_some a bits hv h0 hle, maskBytes_length _ _ _, ?_⟩
    intro i hi
    have hlen := bitLength_eq a hv
    have hj : i / 8 < a.addressBytes.length := by omega
    have hk : 7 - i % 8 < 8 := by omega
    have hbit := maskBytes_testBit a.addressBytes bits.toNat a.bitLength
      (i / 8) (7 - i % 8) hj hk
    have hpos : 8 * (i / 8) + (7 - (7 - i % 8)) = i := by omega
    rw [hpos] at hbit
    constructor
    · intro hbi
      have hcond : bits.toNat ≤ i ∧ i < a.bitLength := by omega
      unfold addrBit
      rw [hbit]
      simp [hcond.1, hcond.2]
    · intro hbi
      have hcond : ¬(bits.toNat ≤ i ∧ i < a.bitLength) := by omega
      unfold addrBit
      rw [hbit]
      simp only [hcond]
      simp

/-- Witness for C3 at a concrete input: 192.168.1.42 masked to 33 bits
throws, masked to 24 bits gives 192.168.1.0. -/
theorem claim_C3_mask_witness :
    (Address.mask ⟨[192, 168, 1, 42], ""⟩ 33 = none) ∧
    (∃ m, Address.mask ⟨[192, 168, 1, 42], ""⟩ 24 = some m ∧
      m.addressBytes.length = 4 ∧
      ∀ i : Nat, i < 32 →
        ((24 : Int) ≤ (i : Int) → addrBit m.addressBytes i = false) ∧
        ((i : Int) < 24 → addrBit m.addressBytes i =
          addrBit [192, 168, 1, 42] i)) := by
  constructor
  · exact (claim_C3_mask ⟨[192, 168, 1, 42], ""⟩ 33).1.mpr (by decide)
  · exact (claim_C3_mask ⟨[192, 168, 1, 42], ""⟩ 24).2 (by decide) (by decide)
      (by decide)

/-! Successor and predecessor. -/

/-- Value of a little-endian (least significant first) byte list. -/
def leVal : List Nat → Nat
  | [] => 0
  | b :: rest => b + 256 * leVal rest

/-- Value of a big-endian byte list (the number the spec reads the address
bytes as). -/
def beVal : List Nat → Nat
  | [] => 0
  | b :: rest => b * 256 ^ rest.length + beVal rest

/-- Appending a most-significant byte to a little-endian list. -/
theorem leVal_append (xs : List Nat) (b : Nat) :
    leVal (xs ++ [b]) = leVal xs + b * 256 ^ xs.length := by
  induction xs with
  | nil => simp [leVal]
  | cons x rest ih =>
    simp only [List.cons_append, leVal, List.length_cons, List.append_eq]
    rw [ih]
    ring

/-- The big-endian value of a list is the little-endian value of its
reverse. -/
theorem leVal_reverse (l : List Nat) : leVal l.reverse = beVal l := by
  induction l with
  | nil => rfl
  | cons b rest ih =>
    simp only [List.reverse_cons, leVal_append, beVal, ih, List.length_reverse]
    ring

/-- The carry loop fails exactly on the all-255 list. -/
theorem incRev_eq_none_iff (l : List Nat) (hb : ∀ b ∈ l, b < 256) :
    incRev l = none ↔ ∀ b ∈ l, b = 255 := by
  induction l with
  | nil => simp [incRev]
  | cons b rest ih =>
    have hb255 : b < 256 := hb b (List.mem_cons_self b rest)
    unfold incRev
    by_cases h : b < 255
    · simp [h]
      omega
    · have hb' : b = 255 := by omega
      have ih' := ih (fun x hx => hb x (List.mem_cons_of_mem b hx))
      simp [h, hb', Option.map_eq_none, ih']

/-- The borrow loop fails exactly on the all-zero list. -/
theorem decRev_eq_none_iff (l : List Nat) :
    decRev l = none ↔ ∀ b ∈ l, b = 0 := by
  induction l with
  | nil => simp [decRev]
  | cons b rest ih =>
    unfold decRev
    by_cases h : b > 0
    · simp [h]
      omega
    · have hb' : b = 0 := by omega
      simp [h, hb', Option.map_eq_none, ih]

/-- A successful carry adds one to the little-endian value and keeps the
length and the byte bounds. -/
theorem incRev_some (l : List Nat) (hb : ∀ b ∈ l, b < 256) :
    ∀ r, incRev l = some r →
      leVal r = leVal l + 1 ∧ r.length = l.length ∧ ∀ b ∈ r, b < 256 := by
  induction l with
  | nil => intro r h; simp [incRev] at h
  | cons b rest ih =>
    intro r h
    have hb255 : b < 256 := hb b (List.mem_cons_self b rest)
    unfold incRev at h
    by_cases hlt : b < 255
    · simp only [hlt, if_true, Option.some.injEq] at h
      subst h
      refine ⟨by simp [leVal]; omega, by simp, ?_⟩
      intro x hx
      rcases List.mem_cons.mp hx with rfl | hx'
      · omega
      · exact hb x (List.mem_cons_of_mem b hx')
    · simp only [hlt, if_false, Option.map_eq_some'] at h
      obtain ⟨r', hr', rfl⟩ := h
      have ih' := ih (fun x hx => hb x (List.mem_cons_of_mem b hx)) r' hr'
      have hb' : b = 255 := by omega
      refine ⟨?_, by simp [ih'.2.1], ?_⟩
      · simp [leVal, ih'.1, hb']
        ring
      · intro x hx
        rcases List.mem_cons.mp hx with rfl | hx'
        · omega
        · exact ih'.2.2 x hx'

/-- A successful borrow subtracts one from the little-endian value and
keeps the length and the byte bounds. -/
theorem decRev_some (l : List Nat) (hb : ∀ b ∈ l, b < 256) :
    ∀ r, decRev l = some r →
      leVal l = leVal r + 1 ∧ r.length = l.length ∧ ∀ b ∈ r, b < 256 := by
  induction l with
  | nil => intro r h; simp [decRev] at h
  | cons b rest ih =>
    intro r h
    unfold decRev at h
    by_cases hpos : b > 0
    · simp only [hpos, if_true, Option.some.injEq] at h
      subst h
      refine ⟨by simp [leVal]; omega, by simp, ?_⟩
      intro x hx
      rcases List.mem_cons.mp hx with rfl | hx'
      · have := hb b (List.mem_cons_self b rest); omega
      · exact hb x (List.mem_cons_of_mem b hx')
    · simp only [hpos, if_false, Option.map_eq_some'] at h
      obtain ⟨r', hr', rfl⟩ := h
      have ih' := ih (fun x hx => hb x (List.mem_cons_of_mem b hx)) r' hr'
      have hb' : b = 0 := by omega
      refine ⟨?_, by simp [ih'.2.1], ?_⟩
      · simp [leVal, hb']
        omega
      · intro x hx
        rcases List.mem_cons.mp hx with rfl | hx'
        · omega
        · exact ih'.2.2 x hx'

/-- Carry then borrow gives back the original list. -/
theorem decRev_incRev (l : List Nat) (hb : ∀ b ∈ l, b < 256) :
    ∀ r, incRev l = some r → decRev r = some l := by
  induction l with
  | nil => intro r h; simp [incRev] at h
  | cons b rest ih =>
    intro r h
    have hb255 : b < 256 := hb b (List.mem_cons_self b rest)
    unfold incRev at h
    by_cases hlt : b < 255
    · simp only [hlt, if_true, Option.some.injEq] at h
      subst h
      unfold decRev
      simp
    · simp only [hlt, if_false, Option.map_eq_some'] at h
      obtain ⟨r', hr', rfl⟩ := h
      have := ih (fun x hx => hb x (List.mem_cons_of_mem b hx)) r' hr'
      have hb' : b = 255 := by omega
      unfold decRev
      simp [this, hb']

/-- Borrow then carry gives back the original list. -/
theorem incRev_decRev (l : List Nat) (hb : ∀ b ∈ l, b < 256) :
    ∀ r, decRev l = some r → incRev r = some l := by
  induction l with
  | nil => intro r h; simp [decRev] at h
  | cons b rest ih =>
    intro r h
    have hb255 : b < 256 := hb b (List.mem_cons_self b rest)
    unfold decRev at h
    by_cases hpos : b > 0
    · simp only [hpos, if_true, Option.some.injEq] at h
      subst h
      unfold incRev
      have : b - 1 < 255 := by omega
      simp [this]
      omega
    · simp only [hpos, if_false, Option.map_eq_some'] at h
      obtain ⟨r', hr', rfl⟩ := h
      have := ih (fun x hx => hb x (List.mem_cons_of_mem b hx)) r' hr'
      have hb' : b = 0 := by omega
      unfold incRev
      simp [this, hb']

/-- C7: next and previous are mutually inverse away from the extremes, act
as plus one and minus one on the big-endian value, and yield the zero-length invalid
sentinel at the extremes instead of wrapping. The zone rides along
unchanged through next and previous. -/
theorem claim_C7_next_previous (a : Address) (hv : a.isValid = true)
    (hb : ∀ b ∈ a.addressBytes, b < 256) :
    ((¬∀ b ∈ a.addressBytes, b = 0) →
      a.previous.next = a ∧
        beVal a.previous.addressBytes + 1 = beVal a.addressBytes) ∧
    ((¬∀ b ∈ a.addressBytes, b = 255) →
      a.next.previous = a ∧
        beVal a.next.addressBytes = beVal a.addressBytes + 1) ∧
    ((∀ b ∈ a.addressBytes, b = 0) → a.previous = ⟨[], ""⟩) ∧
    ((∀ b ∈ a.addressBytes, b = 255) → a.next = ⟨[], ""⟩) := by
  obtain ⟨bytes, zone⟩ := a
  simp only at hb ⊢
  have hbrev : ∀ b ∈ bytes.reverse, b < 256 := by
    intro b hbm
    exact hb b (List.mem_reverse.mp hbm)
  refine ⟨?_, ?_, ?_, ?_⟩
  · intro hnz
    have hdec : decRev bytes.reverse ≠ none := by
      intro hnone
      have hall := (decRev_eq_none_iff bytes.reverse).mp hnone
      exact hnz (fun b hbm => hall b (List.mem_reverse.mpr hbm))
    obtain ⟨r, hr⟩ := Option.ne_none_iff_exists'.mp hdec
    have hprev : Address.previous ⟨bytes, zone⟩ = ⟨r.reverse, zone⟩ := by
      unfold Address.previous
      simp only [hr]
    have hval := decRev_some bytes.reverse hbrev r hr
    have hinc := incRev_decRev bytes.reverse hbrev r hr
    rw [hprev]
    constructor
    · unfold Address.next
      simp only [List.reverse_reverse, hinc]
    · simp only
      have h1 : beVal r.reverse = leVal r := by
        rw [← leVal_reverse, List.reverse_reverse]
      have h2 : beVal bytes = leVal bytes.reverse := (leVal_reverse bytes).symm
      omega
  · intro hnm
    have hincn : incRev bytes.reverse ≠ none := by
      intro hnone
      have hall := (incRev_eq_none_iff bytes.reverse hbrev).mp hnone
      exact hnm (fun b hbm => hall b (List.mem_reverse.mpr hbm))
    obtain ⟨r, hr⟩ := Option.ne_none_iff_exists'.mp hincn
    have hnext : Address.next ⟨bytes, zone⟩ = ⟨r.reverse, zone⟩ := by
      unfold Address.next
      simp only [hr]
    have hval := incRev_some bytes.reverse hbrev r hr
    have hdec := decRev_incRev bytes.reverse hbrev r hr
    rw [hnext]
    constructor
    · unfold Address.previous
      simp only [List.reverse_reverse, hdec]
    · simp only
      have h1 : beVal r.reverse = leVal r := by
        rw [← leVal_reverse, List.reverse_reverse]
      have h2 : beVal bytes = leVal bytes.reverse := (leVal_reverse bytes).symm
      omega
  · intro hz
    have : decRev bytes.reverse = none := by
      rw [decRev_eq_none_iff]
      exact fun b hbm => hz b (List.mem_reverse.mp hbm)
    unfold Address.previous
    simp only [this]
  · intro hm
    have : incRev bytes.reverse = none := by
      rw [incRev_eq_none_iff bytes.reverse hbrev]
      exact fun b hbm => hm b (List.mem_reverse.mp hbm)
    unfold Address.next
    simp only [this]

/-- Witness for C7 at concrete inputs: a zoned IPv6 address round-trips
through next then previous, and next of the all-255 address is the invalid
sentinel. -/
theorem claim_C7_next_previous_witness :
    (Address.previous (Address.next
        ⟨[32, 1, 13, 184, 0, 0, 0, 0, 0, 0, 0, 0, 0, 0, 0, 1], "eth0"⟩) =
      ⟨[32, 1, 13, 184, 0, 0, 0, 0, 0, 0, 0, 0, 0, 0, 0, 1], "eth0"⟩) ∧
    (Address.next ⟨List.replicate 16 255, ""⟩ = ⟨[], ""⟩) := by
  constructor
  · exact ((claim_C7_next_previous
      ⟨[32, 1, 13, 184, 0, 0, 0, 0, 0, 0, 0, 0, 0, 0, 0, 1], "eth0"⟩
      (by decide) (by decide)).2.1 (by decide)).1
  · exact (claim_C7_next_previous ⟨List.replicate 16 255, ""⟩
      (by decide) (by decide)).2.2.2 (by decide)

/-! Zone insensitivity of comparison. -/

/-- withZone never changes the bytes. -/
theorem withZone_addressBytes (a : Address) (z : String) :
    (a.withZone z).addressBytes = a.addressBytes := by
  unfold Address.withZone
  split <;> rfl

/-- compareBytes is reflexive. -/
theorem compareBytes_self (l : List Nat) : compareBytes l l = 0 := by
  induction l with
  | nil => rfl
  | cons b rest ih => simp [compareBytes, ih]

/-- mask results have the same bytes whatever the zone of the input. -/
theorem mask_map_bytes_zone (bytes : List Nat) (z1 z2 : String) (m : Int) :
    (Address.mask ⟨bytes, z1⟩ m).map Address.addressBytes =
      (Address.mask ⟨bytes, z2⟩ m).map Address.addressBytes := by
  unfold Address.mask
  have hbl : Address.bitLength ⟨bytes, z1⟩ = Address.bitLength ⟨bytes, z2⟩ := rfl
  have hv : Address.isValid ⟨bytes, z1⟩ = Address.isValid ⟨bytes, z2⟩ := rfl
  simp only [hbl, hv]
  split
  · rfl
  · split <;> rfl

/-- mask throws for one zone exactly when it throws for another. -/
theorem mask_isSome_zone (bytes : List Nat) (z1 z2 : String) (m : Int) :
    (Address.mask ⟨bytes, z1⟩ m).isSome = (Address.mask ⟨bytes, z2⟩ m).isSome := by
  unfold Address.mask
  have hbl : Address.bitLength ⟨bytes, z1⟩ = Address.bitLength ⟨bytes, z2⟩ := rfl
  have hv : Address.isValid ⟨bytes, z1⟩ = Address.isValid ⟨bytes, z2⟩ := rfl
  simp only [hbl, hv]
  split
  · rfl
  · split <;> rfl

/-- What overlaps returning true means, spelled out. -/
theorem overlaps_eq_true_iff (p q : AddressPrefix) :
    p.overlaps q = true ↔
      (p.isValid = true ∧ q.isValid = true ∧
        p.address.bitLength = q.address.bitLength ∧
        ∃ x y, p.address.mask (min p.bits q.bits) = some x ∧
          q.address.mask (min p.bits q.bits) = some y ∧ x.compare y = 0) := by
  unfold AddressPrefix.overlaps
  by_cases h1 : ¬p.isValid ∨ ¬q.isValid
  · rw [if_pos h1]
    simp only [Bool.false_eq_true, false_iff]
    intro hcontra
    rcases h1 with h | h
    · exact h (by simp [hcontra.1])
    · exact h (by simp [hcontra.2.1])
  · rw [if_neg h1]
    push_neg at h1
    by_cases h2 : p.address.bitLength ≠ q.address.bitLength
    · rw [if_pos h2]
      simp only [Bool.false_eq_true, false_iff]
      intro hcontra
      exact h2 hcontra.2.2.1
    · rw [if_neg h2]
      push_neg at h2
      simp only
      cases hx : p.address.mask (min p.bits q.bits) with
      | none =>
        simp only [Bool.false_eq_true, false_iff]
        intro hcontra
        obtain ⟨x, y, hx2, -, -⟩ := hcontra.2.2.2
        exact Option.noConfusion hx2
      | some x =>
        cases hy : q.address.mask (min p.bits q.bits) with
        | none =>
          simp only [Bool.false_eq_true, false_iff]
          intro hcontra
          obtain ⟨a, b, -, hy2, -⟩ := hcontra.2.2.2
          exact Option.noConfusion hy2
        | some y =>
          simp only [decide_eq_true_eq]
          constructor
          · intro hcmp
            exact ⟨h1.1, h1.2, h2, x, y, rfl, rfl, hcmp⟩
          · intro hcontra
            obtain ⟨a, b, ha, hb, hab⟩ := hcontra.2.2.2
            rw [Option.some.injEq] at ha hb
            rw [← ha, ← hb] at hab
            exact hab

/-- overlaps does not look at the zone of the receiving prefix's address. -/
theorem overlaps_zone_irrel (bytes : List Nat) (z1 z2 : String) (bb : Int)
    (q : AddressPrefix) :
    AddressPrefix.overlaps ⟨⟨bytes, z1⟩, bb⟩ q =
      AddressPrefix.overlaps ⟨⟨bytes, z2⟩, bb⟩ q := by
  have key : ∀ w1 w2 : String,
      AddressPrefix.overlaps ⟨⟨bytes, w1⟩, bb⟩ q = true →
        AddressPrefix.overlaps ⟨⟨bytes, w2⟩, bb⟩ q = true := by
    intro w1 w2 h
    rw [overlaps_eq_true_iff] at h ⊢
    obtain ⟨hv, hq, hbl, x, y, hx, hy, hc⟩ := h
    have hv2 : AddressPrefix.isValid ⟨⟨bytes, w2⟩, bb⟩ = true := hv
    have hbl2 : Address.bitLength ⟨bytes, w2⟩ = q.address.bitLength := hbl
    have hmap := mask_map_bytes_zone bytes w1 w2 (min bb q.bits)
    rw [hx] at hmap
    cases hx2 : Address.mask ⟨bytes, w2⟩ (min bb q.bits) with
    | none => rw [hx2] at hmap; simp at hmap
    | some x2 =>
      rw [hx2] at hmap
      simp only [Option.map_some', Option.some.injEq] at hmap
      refine ⟨hv2, hq, hbl2, x2, y, rfl, hy, ?_⟩
      unfold Address.compare at hc ⊢
      rw [← hmap]
      exact hc
  cases hz1 : AddressPrefix.overlaps ⟨⟨bytes, z1⟩, bb⟩ q with
  | true => exact (key z1 z2 hz1).symm
  | false =>
    cases hz2 : AddressPrefix.overlaps ⟨⟨bytes, z2⟩, bb⟩ q with
    | true => rw [← hz1]; exact key z2 z1 hz2
    | false => rfl

/-- C9: compare ignores the zone entirely, so equal-byte addresses with
different zones compare as 0, and lessThan and AddressPrefix.overlaps are
zone-insensitive as well. -/
theorem claim_C9_compare_ignores_zone (a b : Address) (z : String) :
    ((a.withZone z).compare b = a.compare b ∧
      a.compare (b.withZone z) = a.compare b) ∧
    (∀ (bytes : List Nat) (z1 z2 : String),
      Address.compare ⟨bytes, z1⟩ ⟨bytes, z2⟩ = 0) ∧
    ((a.withZone z).lessThan b = a.lessThan b) ∧
    (∀ (bits : Int) (q : AddressPrefix),
      (AddressPrefix.fromParts (a.withZone z) bits).overlaps q =
        (AddressPrefix.fromParts a bits).overlaps q) := by
  have hcw : ∀ (x y : Address), (x.withZone z).compare y = x.compare y := by
    intro x y
    unfold Address.compare
    rw [withZone_addressBytes]
  have hcw2 : ∀ (x y : Address), x.compare (y.withZone z) = x.compare y := by
    intro x y
    unfold Address.compare
    rw [withZone_addressBytes]
  refine ⟨⟨hcw a b, hcw2 a b⟩, ?_, ?_, ?_⟩
  · intro bytes z1 z2
    unfold Address.compare
    exact compareBytes_self bytes
  · unfold Address.lessThan
    rw [hcw a b]
  · intro bits q
    obtain ⟨bytes, zone⟩ := a
    unfold AddressPrefix.fromParts AddressPrefix.make
    by_cases h6 : Address.isIPv6 ⟨bytes, zone⟩
    · have hw : Address.withZone ⟨bytes, zone⟩ z = ⟨bytes, z⟩ := by
        unfold Address.withZone
        simp [h6]
      rw [hw]
      have hbl : Address.bitLength ⟨bytes, z⟩ = Address.bitLength ⟨bytes, zone⟩ := rfl
      rw [hbl]
      split
      · exact overlaps_zone_irrel bytes z zone (-1) q
      · exact overlaps_zone_irrel bytes z zone bits q
    · have hw : Address.withZone ⟨bytes, zone⟩ z = ⟨bytes, zone⟩ := by
        unfold Address.withZone
        simp [h6]
      rw [hw]

/-! Classification, leading zeros, bracket parsing, constructor asymmetry. -/

/-- Counterexample to C4 as stated: 169.254.0.1 is IPv4 link-local unicast,
yet isGlobalUnicast returns true, because the IPv4 branch of the source
negates only private, unspecified, loopback and multicast - it does not
exclude link-local. -/
theorem claim_C4_counterexample :
    ¬((Address.isGlobalUnicast ⟨[169, 254, 0, 1], ""⟩ = true) ↔
      (Address.isPrivate ⟨[169, 254, 0, 1], ""⟩ = false ∧
        Address.isLoopback ⟨[169, 254, 0, 1], ""⟩ = false ∧
        Address.isMulticast ⟨[169, 254, 0, 1], ""⟩ = false ∧
        Address.isLinkLocalUnicast ⟨[169, 254, 0, 1], ""⟩ = false ∧
        Address.isUnspecified ⟨[169, 254, 0, 1], ""⟩ = false)) := by
  decide

/-- C4 amended: for a 4-byte address, isGlobalUnicast is true exactly when
the address is not private, not unspecified, not loopback and not
multicast; link-local unicast addresses are NOT excluded by the code. -/
theorem claim_C4_global_unicast (a : Address) (h4 : a.isIPv4 = true) :
    a.isGlobalUnicast = true ↔
      (a.isPrivate = false ∧ a.isUnspecified = false ∧
        a.isLoopback = false ∧ a.isMulticast = false) := by
  unfold Address.isGlobalUnicast
  rw [if_pos h4]
  simp

/-- Witness for C4 at a concrete input: 8.8.8.8. -/
theorem claim_C4_global_unicast_witness :
    Address.isGlobalUnicast ⟨[8, 8, 8, 8], ""⟩ = true ↔
      (Address.isPrivate ⟨[8, 8, 8, 8], ""⟩ = false ∧
        Address.isUnspecified ⟨[8, 8, 8, 8], ""⟩ = false ∧
        Address.isLoopback ⟨[8, 8, 8, 8], ""⟩ = false ∧
        Address.isMulticast ⟨[8, 8, 8, 8], ""⟩ = false) :=
  claim_C4_global_unicast ⟨[8, 8, 8, 8], ""⟩ (by decide)

/-- C5: the top-level IPv4 grammar accepts leading zeros and reads the
octets as decimal, while the embedded IPv4 grammar inside an IPv6 literal
rejects a multi-digit octet starting with 0. -/
theorem claim_C5_leading_zero_asymmetry :
    Address.parseAddress "01.02.003.4" = some ⟨[1, 2, 3, 4], ""⟩ ∧
    Address.parseAddress "::ffff:01.2.3.4" = none := by
  constructor <;> decide

/-- C10: in the bracketed form parseAddrPort never checks that the char
after the closing bracket is a colon; on the input with an 'x' there it
still succeeds with address ::1 and port 443. -/
theorem claim_C10_bracket_not_checked :
    AddressPort.parseAddrPort "[::1]x443" =
      some ⟨⟨[0, 0, 0, 0, 0, 0, 0, 0, 0, 0, 0, 0, 0, 0, 0, 1], ""⟩, 443⟩ := by
  decide

/-- C6: the raw AddressPrefix constructor (and AddressPrefix.from) turns an
out-of-range prefix length into the sentinel -1 without failing, while
parsePrefix fails outright on a prefix-length part that is not a number or
out of the same range. -/
theorem claim_C6_constructor_parser_asymmetry :
    (∀ (a : Address) (bits : Int),
      (bits < 0 ∨ (a.bitLength : Int) < bits) →
        (AddressPrefix.make a bits).getBits = -1 ∧
        (AddressPrefix.make a bits).isValid = false ∧
        AddressPrefix.fromParts a bits = AddressPrefix.make a bits) ∧
    (∀ (s : String) (ipPart bitsPart : List Char)
        (restParts : List (List Char)) (a : Address),
      splitOnChar '/' s.data = ipPart :: bitsPart :: restParts →
      Address.parseAddress ⟨ipPart⟩ = some a →
      a.getZone = "" →
      (jsParseIntChars bitsPart = none ∨
        ∀ b, jsParseIntChars bitsPart = some b →
          (b < 0 ∨ (a.bitLength : Int) < b)) →
      AddressPrefix.parsePrefix s = none) := by
  constructor
  · intro a bits h
    have hmk : AddressPrefix.make a bits = ⟨a, -1⟩ := by
      unfold AddressPrefix.make
      rw [if_pos h]
    refine ⟨by rw [hmk]; rfl, ?_, rfl⟩
    rw [hmk]
    unfold AddressPrefix.isValid
    simp
  · intro s ipPart bitsPart restParts a hsplit hparse hzone hbits
    unfold AddressPrefix.parsePrefix
    rw [hsplit]
    dsimp only
    by_cases hemp : bitsPart = []
    · simp [hemp]
    · rw [if_neg hemp, hparse]
      dsimp only
      have hz : ¬a.getZone ≠ "" := by simp [hzone]
      rw [if_neg hz]
      cases hb : jsParseIntChars bitsPart with
      | none => rfl
      | some b =>
        rcases hbits with hnone | hrange
        · rw [hb] at hnone; exact Option.noConfusion hnone
        · dsimp only
          rw [if_pos (hrange b hb)]

/-- Witness for C6 at concrete inputs: prefix length 33 on an IPv4 address
through the constructor and through parsePrefix. -/
theorem claim_C6_constructor_parser_asymmetry_witness :
    ((AddressPrefix.make ⟨[1, 2, 3, 4], ""⟩ 33).getBits = -1 ∧
      (AddressPrefix.make ⟨[1, 2, 3, 4], ""⟩ 33).isValid = false ∧
      AddressPrefix.fromParts ⟨[1, 2, 3, 4], ""⟩ 33 =
        AddressPrefix.make ⟨[1, 2, 3, 4], ""⟩ 33) ∧
    AddressPrefix.parsePrefix "1.2.3.4/33" = none := by
  constructor
  · exact claim_C6_constructor_parser_asymmetry.1 ⟨[1, 2, 3, 4], ""⟩ 33 (by decide)
  · refine claim_C6_constructor_parser_asymmetry.2 "1.2.3.4/33"
      "1.2.3.4".data "33".data [] ⟨[1, 2, 3, 4], ""⟩ (by decide) (by decide)
      (by decide) ?_
    right
    intro b hb
    have h33 : jsParseIntChars "33".data = some 33 := by decide
    rw [h33, Option.some.injEq] at hb
    have hbl : Address.bitLength ⟨[1, 2, 3, 4], ""⟩ = 32 := by decide
    rw [hbl]
    omega

/-! Zone scoping: which construction paths can put a zone on a 4-byte
address. -/

/-- The top-level octet loop returns one byte per part. -/
theorem parseIPv4Octets_length :
    ∀ parts ns, parseIPv4Octets parts = some ns → ns.length = parts.length := by
  intro parts
  induction parts with
  | nil =>
    intro ns h
    unfold parseIPv4Octets at h
    rw [Option.some.injEq] at h
    rw [← h]
    rfl
  | cons p rest ih =>
    intro ns h
    unfold parseIPv4Octets at h
    cases hj : jsParseIntChars p with
    | none => rw [hj] at h; exact Option.noConfusion h
    | some num =>
      rw [hj] at h
      dsimp only at h
      split at h
      · exact Option.noConfusion h
      · simp only [Option.map_eq_some'] at h
        obtain ⟨ns', hns', rfl⟩ := h
        simp [ih ns' hns']

/-- The embedded-IPv4 octet loop returns one byte per part. -/
theorem parseIPv4FieldOctets_length :
    ∀ parts ns, parseIPv4FieldOctets parts = some ns → ns.length = parts.length := by
  intro parts
  induction parts with
  | nil =>
    intro ns h
    unfold parseIPv4FieldOctets at h
    rw [Option.some.injEq] at h
    rw [← h]
    rfl
  | cons p rest ih =>
    intro ns h
    unfold parseIPv4FieldOctets at h
    split at h
    · exact Option.noConfusion h
    · split at h
      · exact Option.noConfusion h
      · cases hj : jsParseIntChars p with
        | none => rw [hj] at h; exact Option.noConfusion h
        | some num =>
          rw [hj] at h
          dsimp only at h
          split at h
          · exact Option.noConfusion h
          · simp only [Option.map_eq_some'] at h
            obtain ⟨ns', hns', rfl⟩ := h
            simp [ih ns' hns']

/-- The embedded IPv4 part always contributes exactly 4 bytes. -/
theorem parseIPv4FieldsChars_length (s : List Char) (bs : List Nat)
    (h : Address.parseIPv4FieldsChars s = some bs) : bs.length = 4 := by
  unfold Address.parseIPv4FieldsChars at h
  dsimp only at h
  split at h
  · exact Option.noConfusion h
  · rename_i hlen
    rw [parseIPv4FieldOctets_length _ _ h]
    omega

/-- Loop invariant of v6Loop: the collected byte count stays even and at
most 16, and the ellipsis position stays within the collected bytes. -/
theorem v6Loop_inv :
    ∀ fuel s acc ell out,
      Address.v6Loop fuel s acc ell = some out →
      acc.length % 2 = 0 → acc.length ≤ 16 →
      (∀ e, ell = some e → e ≤ acc.length) →
      (out.1.length % 2 = 0 ∧ out.1.length ≤ 16 ∧
        ∀ e, out.2.1 = some e → e ≤ out.1.length) := by
  intro fuel
  induction fuel with
  | zero => intro s acc ell out h; exact Option.noConfusion h
  | succ fuel ih =>
    intro s acc ell out h heven hle hell
    unfold Address.v6Loop at h
    split at h
    case isTrue h16 =>
      rw [Option.some.injEq] at h
      subst h
      exact ⟨heven, hle, hell⟩
    case isFalse h16 =>
      split at h
      case h_1 => exact Option.noConfusion h
      case h_2 a off rest hrun =>
        split at h
        case isTrue hdot =>
          split at h
          case isTrue => exact Option.noConfusion h
          case isFalse h12 =>
            split at h
            case isTrue => exact Option.noConfusion h
            case isFalse hov =>
              split at h
              case h_1 => exact Option.noConfusion h
              case h_2 bs hbs =>
                rw [Option.some.injEq] at h
                subst h
                have hbs4 := parseIPv4FieldsChars_length _ _ hbs
                refine ⟨?_, ?_, ?_⟩
                · simp [hbs4]; omega
                · simp [hbs4]; omega
                · intro e he
                  have := hell e he
                  simp [hbs4]
                  omega
        case isFalse hdot =>
          split at h
          case h_1 =>
            rw [Option.some.injEq] at h
            subst h
            refine ⟨by simp; omega, by simp; omega, ?_⟩
            intro e he
            have := hell e he
            simp
            omega
          case h_2 c rest1 =>
            split at h
            case isTrue => exact Option.noConfusion h
            case isFalse hcolon =>
              split at h
              case h_1 => exact Option.noConfusion h
              case h_2 rest2 =>
                split at h
                case isTrue => exact Option.noConfusion h
                case isFalse hells =>
                  split at h
                  case isTrue hr2 =>
                    rw [Option.some.injEq] at h
                    subst h
                    refine ⟨by simp; omega, by simp; omega, ?_⟩
                    intro e he
                    rw [Option.some.injEq] at he
                    subst he
                    simp
                  case isFalse hr2 =>
                    exact ih _ _ _ _ h (by simp; omega) (by simp; omega)
                      (by intro e he
                          rw [Option.some.injEq] at he
                          subst he
                          simp)
              case h_3 c2 rest2 =>
                exact ih _ _ _ _ h (by simp; omega) (by simp; omega)
                  (by intro e he
                      have := hell e he
                      simp
                      omega)

/-- A parsed IPv6 literal always has exactly 16 bytes. -/
theorem parseIPv6Tail_length (s : List Char) (acc : List Nat)
    (ell : Option Nat) (zone : String) (a : Address)
    (h : Address.parseIPv6Tail s acc ell zone = some a)
    (heven : acc.length % 2 = 0) (hle : acc.length ≤ 16)
    (hell : ∀ e, ell = some e → e ≤ acc.length) :
    a.addressBytes.length = 16 := by
  unfold Address.parseIPv6Tail at h
  cases hloop : Address.v6Loop (s.length + 1) s acc ell with
  | none => rw [hloop] at h; exact Option.noConfusion h
  | some out =>
    obtain ⟨ip, ell2, leftover⟩ := out
    have hinv := v6Loop_inv _ _ _ _ _ hloop heven hle hell
    dsimp only at hinv
    rw [hloop] at h
    dsimp only at h
    split at h
    · exact Option.noConfusion h
    · rename_i hleft
      split at h
      · rename_i hlt
        cases hell2 : ell2 with
        | none => rw [hell2] at h; exact Option.noConfusion h
        | some e =>
          rw [hell2] at h
          dsimp only at h
          rw [Option.some.injEq] at h
          subst h
          have he : e ≤ ip.length := hinv.2.2 e (by rw [hell2])
          dsimp only
          simp only [List.length_append, List.length_take, List.length_replicate,
            List.length_drop]
          omega
      · rename_i hge
        split at h
        · exact Option.noConfusion h
        · rw [Option.some.injEq] at h
          subst h
          have := hinv.2.1
          dsimp only
          omega

/-- parseIPv6Main yields 16 bytes. -/
theorem parseIPv6Main_length (s : List Char) (zone : String) (a : Address)
    (h : Address.parseIPv6Main s zone = some a) :
    a.addressBytes.length = 16 := by
  unfold Address.parseIPv6Main at h
  split at h
  · split at h
    · rw [Option.some.injEq] at h
      subst h
      rfl
    · exact parseIPv6Tail_length _ _ _ _ _ h (by simp) (by simp)
        (by intro e he; rw [Option.some.injEq] at he; omega)
  · exact parseIPv6Tail_length _ _ _ _ _ h (by simp) (by simp)
      (by intro e he; exact Option.noConfusion he)

/-- parseIPv6Address yields 16 bytes. -/
theorem parseIPv6Address_length (inStr : String) (a : Address)
    (h : Address.parseIPv6Address inStr = some a) :
    a.addressBytes.length = 16 := by
  unfold Address.parseIPv6Address at h
  split at h
  · dsimp only at h
    split at h
    · exact Option.noConfusion h
    · exact parseIPv6Main_length _ _ _ h
  · exact parseIPv6Main_length _ _ _ h

/-- A top-level IPv4 parse always produces a zone-free 4-byte address. -/
theorem parseIPv4Address_spec (input : String) (a : Address)
    (h : Address.parseIPv4Address input = some a) :
    a.zone = "" ∧ a.addressBytes.length = 4 := by
  unfold Address.parseIPv4Address at h
  split at h
  · exact Option.noConfusion h
  · dsimp only at h
    split at h
    · exact Option.noConfusion h
    · rename_i hlen
      split at h
      · exact Option.noConfusion h
      · rename_i bytes hbytes
        rw [Option.some.injEq] at h
        subst h
        refine ⟨rfl, ?_⟩
        simp only
        rw [parseIPv4Octets_length _ _ hbytes]
        omega

/-- Counterexample to C8 as stated: the raw constructor stores a zone on a
4-byte address, and getZone exposes it. -/
theorem claim_C8_counterexample :
    Address.isIPv4 ⟨[1, 2, 3, 4], "eth0"⟩ = true ∧
    Address.getZone ⟨[1, 2, 3, 4], "eth0"⟩ ≠ "" := by
  decide

/-- C8 amended: along every construction path except the raw constructor
with an explicit zone argument (the IPv4 factories, byte-array parsing,
string parsing and withZone), a 4-byte address never carries an observable
zone. -/
theorem claim_C8_zone_scoping :
    (∀ (bytes : List Nat) (a : Address),
      Address.fromIPv4Bytes bytes = some a → a.getZone = "") ∧
    (∀ (bytes : List Nat) (a : Address),
      (Address.fromByteArray bytes).1 = some a → a.getZone = "") ∧
    (Address.ipv4Unspecified.getZone = "") ∧
    (∀ (s : String) (a : Address),
      Address.parseAddress s = some a → a.isIPv4 = true → a.getZone = "") ∧
    (∀ (a : Address) (z : String), a.isIPv4 = true → a.withZone z = a) := by
  refine ⟨?_, ?_, rfl, ?_, ?_⟩
  · intro bytes a h
    unfold Address.fromIPv4Bytes at h
    split at h
    · rw [Option.some.injEq] at h
      subst h
      rfl
    · exact Option.noConfusion h
  · intro bytes a h
    unfold Address.fromByteArray at h
    split at h
    · rw [Option.some.injEq] at h
      subst h
      rfl
    · exact Option.noConfusion h
  · intro s a h h4
    unfold Address.parseAddress at h
    split at h
    · have h16 := parseIPv6Address_length _ _ h
      unfold Address.isIPv4 at h4
      simp only [decide_eq_true_eq] at h4
      omega
    · split at h
      · unfold Address.getZone
        exact (parseIPv4Address_spec _ _ h).1
      · exact Option.noConfusion h
  · intro a z h4
    unfold Address.withZone
    have h6 : ¬a.isIPv6 = true := by
      unfold Address.isIPv4 at h4
      unfold Address.isIPv6
      simp only [decide_eq_true_eq] at h4 ⊢
      omega
    rw [if_pos (by simpa using h6)]

/-- Witness for C8 at concrete inputs. -/
theorem claim_C8_zone_scoping_witness :
    (Address.getZone ⟨[10, 0, 0, 1], ""⟩ = "") ∧
    (Address.withZone ⟨[10, 0, 0, 1], ""⟩ "eth0" = ⟨[10, 0, 0, 1], ""⟩) := by
  constructor
  · exact claim_C8_zone_scoping.2.2.2.1 "10.0.0.1" ⟨[10, 0, 0, 1], ""⟩
      (by decide) (by decide)
  · exact claim_C8_zone_scoping.2.2.2.2 ⟨[10, 0, 0, 1], ""⟩ "eth0" (by decide)

/-! Range computation: exact arithmetic on the full address width. -/

/-- beVal of a list with one (least significant) byte appended. -/
theorem beVal_append_one (xs : List Nat) (b : Nat) :
    beVal (xs ++ [b]) = beVal xs * 256 + b := by
  induction xs with
  | nil => simp [beVal]
  | cons x rest ih =>
    simp only [List.cons_append, beVal, List.append_eq, List.length_append,
      List.length_cons, List.length_nil, ih]
    ring

/-- beVal stays below the capacity of the byte width. -/
theorem beVal_lt (l : List Nat) (hb : ∀ b ∈ l, b < 256) :
    beVal l < 256 ^ l.length := by
  induction l with
  | nil => simp [beVal]
  | cons b rest ih =>
    have hbb : b < 256 := hb b (List.mem_cons_self b rest)
    have hr := ih (fun x hx => hb x (List.mem_cons_of_mem b hx))
    simp only [beVal, List.length_cons, pow_succ]
    calc b * 256 ^ rest.length + beVal rest
        < b * 256 ^ rest.length + 256 ^ rest.length := by omega
      _ = (b + 1) * 256 ^ rest.length := by ring
      _ ≤ 256 ^ rest.length * 256 := by
          rw [Nat.mul_comm]
          exact Nat.mul_le_mul_left _ (by omega)

/-- A number whose low r bits are all clear is divisible by 2^r. -/
theorem mod_pow_eq_zero_of_low_bits (b r : Nat)
    (h : ∀ k, k < r → b.testBit k = false) : b % 2 ^ r = 0 := by
  apply Nat.eq_of_testBit_eq
  intro i
  rw [Nat.testBit_mod_two_pow, Nat.zero_testBit]
  by_cases hi : i < r
  · simp [h i hi]
  · simp [hi]

/-- A big-endian list whose MSB-first bit positions at or past
8 * length - r are all clear has value divisible by 2^r. -/
theorem beVal_mod_eq_zero (l : List Nat) (hb : ∀ b ∈ l, b < 256) (r : Nat)
    (hr : r ≤ 8 * l.length)
    (hbit : ∀ p, p < 8 * l.length → 8 * l.length - r ≤ p → addrBit l p = false) :
    beVal l % 2 ^ r = 0 := by
  induction l using List.reverseRecOn generalizing r with
  | nil =>
    simp only [List.length_nil, Nat.mul_zero, Nat.le_zero] at hr
    simp [beVal, hr]
  | append_singleton xs b ih =>
    have hlen : (xs ++ [b]).length = xs.length + 1 := by simp
    have hbx : ∀ x ∈ xs, x < 256 := fun x hx => hb x (List.mem_append_left _ hx)
    have hbb : b < 256 := hb b (List.mem_append_right _ (List.mem_cons_self b []))
    rw [beVal_append_one]
    by_cases hr8 : r ≤ 8
    · have hdvd1 : 2 ^ r ∣ beVal xs * 256 := by
        apply Dvd.dvd.mul_left
        have : (256 : Nat) = 2 ^ 8 := by norm_num
        rw [this]
        exact pow_dvd_pow 2 hr8
      have hbmod : b % 2 ^ r = 0 := by
        apply mod_pow_eq_zero_of_low_bits
        intro k hk
        have hp : addrBit (xs ++ [b]) (8 * (xs ++ [b]).length - 1 - k) = false := by
          apply hbit <;> omega
        unfold addrBit at hp
        have hdiv : (8 * (xs ++ [b]).length - 1 - k) / 8 = xs.length := by
          rw [hlen]; omega
        have hmod : 7 - (8 * (xs ++ [b]).length - 1 - k) % 8 = k := by
          rw [hlen]; omega
        rw [hdiv, hmod] at hp
        rw [List.getD_append_right xs [b] 0 xs.length (Nat.le_refl _)] at hp
        simpa using hp
      have hd2 : (2 : Nat) ^ r ∣ b := Nat.dvd_of_mod_eq_zero hbmod
      have hsum : (2 : Nat) ^ r ∣ beVal xs * 256 + b := Nat.dvd_add hdvd1 hd2
      obtain ⟨q, hq⟩ := hsum
      rw [hq]
      exact Nat.mul_mod_right _ _
    · have hrx : r - 8 ≤ 8 * xs.length := by rw [hlen] at hr; omega
      have hIH : beVal xs % 2 ^ (r - 8) = 0 := by
        apply ih hbx (r - 8) hrx
        intro p hp hge
        have hp2 : addrBit (xs ++ [b]) p = false := by
          apply hbit <;> rw [hlen] <;> omega
        unfold addrBit at hp2 ⊢
        rwa [List.getD_append xs [b] 0 (p / 8) (by omega)] at hp2
      have hbz : b = 0 := by
        have hbmod : b % 2 ^ 8 = 0 := by
          apply mod_pow_eq_zero_of_low_bits
          intro k hk
          have hp : addrBit (xs ++ [b]) (8 * (xs ++ [b]).length - 1 - k) = false := by
            apply hbit <;> rw [hlen] <;> omega
          unfold addrBit at hp
          have hdiv : (8 * (xs ++ [b]).length - 1 - k) / 8 = xs.length := by
            rw [hlen]; omega
          have hmod : 7 - (8 * (xs ++ [b]).length - 1 - k) % 8 = k := by
            rw [hlen]; omega
          rw [hdiv, hmod] at hp
          rw [List.getD_append_right xs [b] 0 xs.length (Nat.le_refl _)] at hp
          simpa using hp
        norm_num at hbmod
        omega
      subst hbz
      obtain ⟨q, hq⟩ := Nat.dvd_of_mod_eq_zero hIH
      have key : beVal xs * 256 + 0 = q * 2 ^ r := by
        rw [hq]
        have h256 : (256 : Nat) = 2 ^ 8 := by norm_num
        have hr9 : r - 8 + 8 = r := by omega
        calc 2 ^ (r - 8) * q * 256 + 0 = q * (2 ^ (r - 8) * 2 ^ 8) := by
              rw [h256]; ring
          _ = q * 2 ^ (r - 8 + 8) := by rw [← Nat.pow_add]
          _ = q * 2 ^ r := by rw [hr9]
      rw [key]
      simp [Nat.mul_mod_left]

/-- The BigInt accumulation step is plain base-256 positional arithmetic. -/
theorem shiftOr_eq (acc b : Nat) (hb : b < 256) :
    (acc <<< 8) ||| b = acc * 256 + b := by
  rw [Nat.shiftLeft_eq]
  have h256 : (2 : Nat) ^ 8 = 256 := by norm_num
  rw [h256]
  have := Nat.mul_add_lt_is_or (show b < 2 ^ 8 by omega) acc
  rw [h256] at this
  rw [Nat.mul_comm acc 256]
  omega

/-- The BigInt fold of getRanges computes the big-endian value. -/
theorem bytesToNatBE_go (l : List Nat) :
    ∀ acc, (∀ b ∈ l, b < 256) →
      l.foldl (fun acc b => (acc <<< 8) ||| b) acc =
        acc * 256 ^ l.length + beVal l := by
  induction l with
  | nil => intro acc _; simp [beVal]
  | cons b rest ih =>
    intro acc hb
    have hbb : b < 256 := hb b (List.mem_cons_self b rest)
    simp only [List.foldl_cons]
    rw [ih _ (fun x hx => hb x (List.mem_cons_of_mem b hx))]
    rw [shiftOr_eq acc b hbb]
    simp only [beVal, List.length_cons, pow_succ]
    ring

/-- bytesToNatBE is beVal on byte lists. -/
theorem bytesToNatBE_eq_beVal (l : List Nat) (hb : ∀ b ∈ l, b < 256) :
    bytesToNatBE l = beVal l := by
  unfold bytesToNatBE
  rw [bytesToNatBE_go l 0 hb]
  simp

/-- natToBEBytes produces the requested number of bytes. -/
theorem natToBEBytes_length (n v : Nat) : (natToBEBytes n v).length = n := by
  induction n generalizing v with
  | zero => rfl
  | succ n ih => simp [natToBEBytes, ih]

/-- natToBEBytes produces bytes below 256. -/
theorem natToBEBytes_lt (n v : Nat) : ∀ b ∈ natToBEBytes n v, b < 256 := by
  induction n generalizing v with
  | zero => intro b hb; simp [natToBEBytes] at hb
  | succ n ih =>
    intro b hb
    simp only [natToBEBytes, List.mem_append, List.mem_cons] at hb
    rcases hb with hb | hb | hb
    · exact ih _ b hb
    · subst hb
      have : v &&& 255 ≤ 255 := Nat.and_le_right
      omega
    · simp at hb

/-- The re-encoding loop of getRanges inverts beVal within the width. -/
theorem beVal_natToBEBytes (n v : Nat) (hv : v < 2 ^ (8 * n)) :
    beVal (natToBEBytes n v) = v := by
  induction n generalizing v with
  | zero =>
    simp only [Nat.mul_zero, pow_zero, Nat.lt_one_iff] at hv
    simp [natToBEBytes, beVal, hv]
  | succ n ih =>
    simp only [natToBEBytes]
    rw [beVal_append_one]
    have hand : v &&& 255 = v % 256 := by
      have h := Nat.and_pow_two_sub_one_eq_mod v 8
      norm_num at h
      exact h
    have hshift : v >>> 8 = v / 256 := by
      have h := Nat.shiftRight_eq_div_pow v 8
      norm_num at h
      exact h
    rw [hand, hshift, ih (v / 256) (by
      apply Nat.div_lt_of_lt_mul
      calc v < 2 ^ (8 * (n + 1)) := hv
        _ = 2 ^ (8 * n) * 256 := by rw [Nat.mul_succ, pow_add]; norm_num
        _ ≤ 256 * 2 ^ (8 * n) := by rw [Nat.mul_comm])]
    omega

/-- The mask loop keeps bytes below 256. -/
theorem maskBytes_bytes_lt (bytes : List Nat) (bits totalBits : Nat)
    (hb : ∀ b ∈ bytes, b < 256) :
    ∀ x ∈ maskBytes bytes bits totalBits, x < 256 := by
  unfold maskBytes
  induction totalBits with
  | zero => simpa using hb
  | succ n ih =>
    rw [List.range_succ, List.foldl_append, List.foldl_cons, List.foldl_nil]
    intro x hx
    unfold maskStep at hx
    split at hx
    · rcases List.mem_or_eq_of_mem_set hx with hx' | hx'
      · exact ih x hx'
      · subst hx'
        have hmask : (255 ^^^ (1 <<< (7 - n % 8))) < 256 := by
          have h1 : (255 : Nat) < 2 ^ 8 := by norm_num
          have h2 : (1 <<< (7 - n % 8)) < 2 ^ 8 := by
            rw [Nat.shiftLeft_eq, Nat.one_mul]
            exact Nat.pow_lt_pow_right (by omega) (by omega)
          have h3 := Nat.xor_lt_two_pow h1 h2
          norm_num at h3
          exact h3
        calc (List.foldl (maskStep bits) bytes (List.range n)).getD (n / 8) 0 &&&
            (255 ^^^ (1 <<< (7 - n % 8)))
            ≤ (255 ^^^ (1 <<< (7 - n % 8))) := Nat.and_le_right
          _ < 256 := hmask
    · exact ih x hx

/-- C2: for every valid AddressPrefix, getRanges returns the text of the
masked address as the low end, and as the high end the text of the address
(same zone as the source) whose big-endian value is exactly the masked
value plus 2^(bitLength - bits) - 1, with no overflow at the full address
width; concretely, 2001:db8::/32 ranges from 2001:db8:: to
2001:db8:ffff:ffff:ffff:ffff:ffff:ffff. -/
theorem claim_C2_getRanges (p : AddressPrefix) (hv : p.isValid = true)
    (hb : ∀ b ∈ p.address.addressBytes, b < 256) :
    (∃ maskedAddress endBytes,
      p.address.mask p.bits = some maskedAddress ∧
      p.getRanges = some (maskedAddress.toString,
        Address.toString ⟨endBytes, p.address.getZone⟩) ∧
      endBytes.length = p.address.addressBytes.length ∧
      (∀ b ∈ endBytes, b < 256) ∧
      beVal endBytes = beVal maskedAddress.addressBytes +
        (2 ^ (p.address.bitLength - p.bits.toNat) - 1) ∧
      beVal maskedAddress.addressBytes +
        (2 ^ (p.address.bitLength - p.bits.toNat) - 1) <
          2 ^ p.address.bitLength) ∧
    (AddressPrefix.parsePrefix "2001:db8::/32").map AddressPrefix.getRanges =
      some (some ("2001:db8::", "2001:db8:ffff:ffff:ffff:ffff:ffff:ffff")) := by
  refine ⟨?_, by decide⟩
  have hvp := hv
  unfold AddressPrefix.isValid at hvp
  simp only [Bool.and_eq_true, decide_eq_true_eq] at hvp
  obtain ⟨hva, h0, hle⟩ := hvp
  have hmask := mask_eq_some p.address p.bits hva h0 hle
  have hlen8 := bitLength_eq p.address hva
  set L := p.address.addressBytes.length with hL
  set tb := p.address.bitLength with htb
  set msk := maskBytes p.address.addressBytes p.bits.toNat tb with hmsk
  have hmskLen : msk.length = L := maskBytes_length _ _ _
  have hmskLt : ∀ x ∈ msk, x < 256 := maskBytes_bytes_lt _ _ _ hb
  set r := tb - p.bits.toNat with hr
  have hbitsNat : p.bits.toNat ≤ tb := by omega
  have hrle : r ≤ 8 * msk.length := by rw [hmskLen]; omega
  have hmod : beVal msk % 2 ^ r = 0 := by
    apply beVal_mod_eq_zero msk hmskLt r hrle
    intro q hq hge
    unfold addrBit
    have hk : 7 - q % 8 < 8 := by omega
    have hbit := maskBytes_testBit p.address.addressBytes p.bits.toNat tb
      (q / 8) (7 - q % 8) (by omega) hk
    have hpos : 8 * (q / 8) + (7 - (7 - q % 8)) = q := by omega
    rw [hpos] at hbit
    rw [← hmsk] at hbit
    rw [hbit]
    have hc1 : p.bits.toNat ≤ q := by rw [hmskLen] at hge; omega
    have hc2 : q < tb := by rw [hmskLen] at hq; omega
    simp [hc1, hc2]
  have hvlt : beVal msk < 2 ^ (8 * msk.length) := by
    have h1 := beVal_lt msk hmskLt
    have h2 : (256 : Nat) ^ msk.length = 2 ^ (8 * msk.length) := by
      have h8 : (256 : Nat) = 2 ^ 8 := by norm_num
      rw [h8, ← Nat.pow_mul]
    rwa [h2] at h1
  have htb8 : tb = 8 * msk.length := by rw [hmskLen]; omega
  have hbound : beVal msk + (2 ^ r - 1) < 2 ^ tb := by
    obtain ⟨qq, hqq⟩ := Nat.dvd_of_mod_eq_zero hmod
    have h2r : (0 : Nat) < 2 ^ r := Nat.pos_pow_of_pos r (by omega)
    have hvlt2 : beVal msk < 2 ^ tb := by rw [htb8]; exact hvlt
    have hfin : 2 ^ r * 2 ^ (tb - r) = 2 ^ tb := by
      rw [← Nat.pow_add]
      congr 1
      omega
    have h1B : (0 : Nat) < 2 ^ (tb - r) := Nat.pos_pow_of_pos _ (by omega)
    have hqlt : qq < 2 ^ (tb - r) := by
      by_contra hcon
      push_neg at hcon
      have hge2 : 2 ^ r * 2 ^ (tb - r) ≤ 2 ^ r * qq :=
        Nat.mul_le_mul_left _ hcon
      rw [hfin, ← hqq] at hge2
      omega
    have hsum : 2 ^ r * qq + 2 ^ r ≤ 2 ^ tb := by
      calc 2 ^ r * qq + 2 ^ r = 2 ^ r * (qq + 1) := by ring
        _ ≤ 2 ^ r * 2 ^ (tb - r) := Nat.mul_le_mul_left _ hqlt
        _ = 2 ^ tb := hfin
    rw [hqq]
    omega
  have hbe : bytesToNatBE msk = beVal msk := bytesToNatBE_eq_beVal msk hmskLt
  refine ⟨⟨msk, p.address.zone⟩,
    natToBEBytes msk.length (bytesToNatBE msk + (2 ^ r - 1)),
    hmask, ?_, ?_, ?_, ?_, ?_⟩
  · unfold AddressPrefix.getRanges
    rw [if_neg (by simp [hv])]
    dsimp only
    rw [hmask]
    rfl
  · rw [natToBEBytes_length, hmskLen]
  · exact natToBEBytes_lt _ _
  · simp only
    rw [beVal_natToBEBytes _ _ (by rw [hbe, ← htb8]; exact hbound), hbe]
  · exact hbound

/-- Witness for C2 at the concrete prefix 192.168.1.0/24. -/
theorem claim_C2_getRanges_witness :
    (∃ maskedAddress endBytes,
      Address.mask ⟨[192, 168, 1, 0], ""⟩ 24 = some maskedAddress ∧
      AddressPrefix.getRanges ⟨⟨[192, 168, 1, 0], ""⟩, 24⟩ =
        some (maskedAddress.toString,
          Address.toString ⟨endBytes, Address.getZone ⟨[192, 168, 1, 0], ""⟩⟩) ∧
      endBytes.length = 4 ∧
      (∀ b ∈ endBytes, b < 256) ∧
      beVal endBytes = beVal maskedAddress.addressBytes + (2 ^ (32 - 24) - 1) ∧
      beVal maskedAddress.addressBytes + (2 ^ (32 - 24) - 1) < 2 ^ 32) ∧
    (AddressPrefix.parsePrefix "2001:db8::/32").map AddressPrefix.getRanges =
      some (some ("2001:db8::", "2001:db8:ffff:ffff:ffff:ffff:ffff:ffff")) :=
  claim_C2_getRanges ⟨⟨[192, 168, 1, 0], ""⟩, 24⟩ (by decide) (by decide)

/-! Digit and character facts used by the text round-trip. -/

/-- All facts about a single rendered digit char, checked by computation
over the sixteen digits. -/
theorem digit_facts : ∀ k, k < 16 →
    (hexVal (digitChar k) = some k ∧
     digitChar k ≠ ':' ∧ digitChar k ≠ '.' ∧ digitChar k ≠ '%' ∧
     digitChar k ≠ ']' ∧ digitChar k ≠ '[' ∧
     digitChar k ≠ '-' ∧ digitChar k ≠ '+' ∧
     jsWhitespace (digitChar k) = false ∧
     (k ≠ 0 → digitChar k ≠ '0') ∧ (k = 0 → digitChar k = '0') ∧
     (k < 10 → isDecDigit (digitChar k) = true ∧ (digitChar k).toNat - 48 = k)) := by
  decide

/-- A whitespace char is not a decimal digit and not a hex digit. -/
theorem jsWhitespace_not_digit (c : Char) (h : jsWhitespace c = true) :
    isDecDigit c = false ∧ hexVal c = none := by
  unfold jsWhitespace at h
  simp only [decide_eq_true_eq] at h
  rcases h with rfl | rfl | rfl | rfl | rfl | rfl <;> decide

/-- A hex digit char is not one of the structural chars. -/
theorem hexDigit_not_special (c : Char) (h : (hexVal c).isSome = true) :
    c ≠ ':' ∧ c ≠ '.' ∧ c ≠ '%' ∧ c ≠ ']' ∧ c ≠ '[' := by
  refine ⟨?_, ?_, ?_, ?_, ?_⟩ <;> rintro rfl <;> simp [hexVal] at h <;> revert h <;> decide

/-- decAux produces decimal digit chars. -/
theorem decAux_digits : ∀ fuel n, n < fuel →
    ∀ c ∈ decAux fuel n, ∃ k, k < 10 ∧ c = digitChar k := by
  intro fuel
  induction fuel with
  | zero => intro n hn; omega
  | succ fuel ih =>
    intro n hn c hc
    unfold decAux at hc
    split at hc
    · rename_i h10
      simp only [List.mem_singleton] at hc
      exact ⟨n, h10, hc⟩
    · rename_i h10
      rw [List.mem_append] at hc
      rcases hc with hc | hc
      · exact ih (n / 10) (by omega) c hc
      · simp only [List.mem_singleton] at hc
        exact ⟨n % 10, by omega, hc⟩

/-- hexAux produces hex digit chars. -/
theorem hexAux_digits : ∀ fuel n, n < fuel →
    ∀ c ∈ hexAux fuel n, ∃ k, k < 16 ∧ c = digitChar k := by
  intro fuel
  induction fuel with
  | zero => intro n hn; omega
  | succ fuel ih =>
    intro n hn c hc
    unfold hexAux at hc
    split at hc
    · rename_i h16
      simp only [List.mem_singleton] at hc
      exact ⟨n, h16, hc⟩
    · rename_i h16
      rw [List.mem_append] at hc
      rcases hc with hc | hc
      · exact ih (n / 16) (by omega) c hc
      · simp only [List.mem_singleton] at hc
        exact ⟨n % 16, by omega, hc⟩

/-- decAux is never empty on a fueled input. -/
theorem decAux_ne_nil : ∀ fuel n, n < fuel → decAux fuel n ≠ [] := by
  intro fuel
  cases fuel with
  | zero => intro n hn; omega
  | succ fuel =>
    intro n hn
    unfold decAux
    split
    · simp
    · simp

/-- hexAux is never empty on a fueled input. -/
theorem hexAux_ne_nil : ∀ fuel n, n < fuel → hexAux fuel n ≠ [] := by
  intro fuel
  cases fuel with
  | zero => intro n hn; omega
  | succ fuel =>
    intro n hn
    unfold hexAux
    split
    · simp
    · simp

/-- The decimal fold over decAux recovers the number. -/
theorem decAux_foldl : ∀ fuel n a, n < fuel →
    List.foldl (fun acc c => acc * 10 + (c.toNat - 48)) a (decAux fuel n) =
      a * 10 ^ (decAux fuel n).length + n := by
  intro fuel
  induction fuel with
  | zero => intro n a hn; omega
  | succ fuel ih =>
    intro n a hn
    unfold decAux
    split
    · rename_i h10
      simp only [List.foldl_cons, List.foldl_nil, List.length_singleton]
      rw [((digit_facts n (by omega)).2.2.2.2.2.2.2.2.2.2.2 h10).2]
      ring
    · rename_i h10
      rw [List.foldl_append, List.foldl_cons, List.foldl_nil]
      rw [ih (n / 10) a (by omega)]
      rw [((digit_facts (n % 10) (by omega)).2.2.2.2.2.2.2.2.2.2.2 (by omega)).2]
      simp only [List.length_append, List.length_singleton]
      rw [pow_succ]
      have hdm : 10 * (n / 10) + n % 10 = n := Nat.div_add_mod n 10
      ring_nf
      omega

/-- takeWhile keeps a list all of whose elements satisfy the predicate. -/
theorem takeWhile_all {p : Char → Bool} :
    ∀ l : List Char, (∀ c ∈ l, p c = true) → l.takeWhile p = l := by
  intro l
  induction l with
  | nil => intro _; rfl
  | cons c rest ih =>
    intro h
    rw [List.takeWhile_cons, if_pos (h c (List.mem_cons_self c rest))]
    rw [ih (fun x hx => h x (List.mem_cons_of_mem c hx))]

/-- parseInt inverts decimal rendering of a natural number. -/
theorem jsParseIntChars_dec (n : Nat) :
    jsParseIntChars (natToDecChars n) = some (n : Int) := by
  have hne := decAux_ne_nil (n + 1) n (by omega)
  have hdig := decAux_digits (n + 1) n (by omega)
  unfold natToDecChars at hne hdig ⊢
  obtain ⟨c, rest, hcr⟩ := List.exists_cons_of_ne_nil hne
  unfold jsParseIntChars
  rw [hcr]
  obtain ⟨k, hk, hck⟩ := hdig c (by rw [hcr]; exact List.mem_cons_self c rest)
  have hfacts := digit_facts k (by omega)
  have hnws : jsWhitespace c = false := by rw [hck]; exact hfacts.2.2.2.2.2.2.2.2.1
  rw [List.dropWhile_cons, hnws]
  simp only [Bool.false_eq_true, if_false]
  have hall : ∀ x ∈ c :: rest, isDecDigit x = true := by
    intro x hx
    rw [← hcr] at hx
    obtain ⟨k2, hk2, hxk⟩ := hdig x hx
    rw [hxk]
    exact ((digit_facts k2 (by omega)).2.2.2.2.2.2.2.2.2.2.2 hk2).1
  have hsign : (match c :: rest with
      | '-' :: r => ((-1 : Int), r)
      | '+' :: r => ((1 : Int), r)
      | r => ((1 : Int), r)) = ((1 : Int), c :: rest) := by
    have hminus : c ≠ '-' := by rw [hck]; exact hfacts.2.2.2.2.2.2.1
    have hplus : c ≠ '+' := by rw [hck]; exact hfacts.2.2.2.2.2.2.2.1
    split
    · rename_i heq
      rw [List.cons.injEq] at heq
      exact absurd heq.1 hminus
    · rename_i heq
      rw [List.cons.injEq] at heq
      exact absurd heq.1 hplus
    · rfl
  rw [hsign]
  simp only
  rw [takeWhile_all (c :: rest) hall]
  rw [if_neg (by simp)]
  have hval : decDigitsVal (c :: rest) = n := by
    unfold decDigitsVal
    rw [← hcr]
    rw [decAux_foldl (n + 1) n 0 (by omega)]
    simp
  rw [hval]
  simp

/-- The hex fold over hexAux recovers the number. -/
theorem hexAux_foldl : ∀ fuel n a, n < fuel →
    List.foldl (fun acc c => acc * 16 + (hexVal c).getD 0) a (hexAux fuel n) =
      a * 16 ^ (hexAux fuel n).length + n := by
  intro fuel
  induction fuel with
  | zero => intro n a hn; omega
  | succ fuel ih =>
    intro n a hn
    unfold hexAux
    split
    · rename_i h16
      simp only [List.foldl_cons, List.foldl_nil, List.length_singleton]
      rw [(digit_facts n h16).1]
      simp only [Option.getD_some]
      ring
    · rename_i h16
      rw [List.foldl_append, List.foldl_cons, List.foldl_nil]
      rw [ih (n / 16) a (by omega)]
      rw [(digit_facts (n % 16) (by omega)).1]
      simp only [Option.getD_some, List.length_append, List.length_singleton]
      rw [pow_succ]
      have hdm : 16 * (n / 16) + n % 16 = n := Nat.div_add_mod n 16
      ring_nf
      omega

/-- The number of hex digits of a value below 16^m is at most m. -/
theorem hexAux_length_le : ∀ m fuel n, n < fuel → n < 16 ^ m → 1 ≤ m →
    (hexAux fuel n).length ≤ m := by
  intro m
  induction m with
  | zero => intro fuel n _ _ h; omega
  | succ m ih =>
    intro fuel n hn hm _
    cases fuel with
    | zero => omega
    | succ fuel =>
      unfold hexAux
      split
      · simp
      · rename_i h16
        have hq : n / 16 < 16 ^ m := by
          apply Nat.div_lt_of_lt_mul
          rw [pow_succ] at hm
          omega
        have hm1 : 1 ≤ m := by
          by_contra hc
          push_neg at hc
          interval_cases m
          simp at hq
          omega
        have := ih fuel (n / 16) (by omega) hq hm1
        simp only [List.length_append, List.length_singleton]
        omega

/-- parseHexRun consumes exactly a run of rendered hex digits, stopping at
a non-hex char, and folds up their value. -/
theorem parseHexRun_digits :
    ∀ (ds : List Char) (acc off : Nat) (r : List Char),
      (∀ c ∈ ds, ∃ k, k < 16 ∧ c = digitChar k) →
      off + ds.length ≤ 4 → 1 ≤ off + ds.length →
      acc < 16 ^ off →
      (∀ c rr, r = c :: rr → hexVal c = none) →
      Address.parseHexRun acc off (ds ++ r) =
        some (List.foldl (fun a c => a * 16 + (hexVal c).getD 0) acc ds,
          off + ds.length, r) := by
  intro ds
  induction ds with
  | nil =>
    intro acc off r hds h4 h1 hacc hr
    simp only [List.length_nil] at h4 h1
    simp only [List.nil_append, List.foldl_nil, List.length_nil, Nat.add_zero]
    cases r with
    | nil =>
      unfold Address.parseHexRun
      rw [if_neg (by omega)]
    | cons c rr =>
      unfold Address.parseHexRun
      rw [hr c rr rfl]
      rw [if_neg (by omega)]
  | cons c ds' ih =>
    intro acc off r hds h4 h1 hacc hr
    obtain ⟨k, hk, hck⟩ := hds c (List.mem_cons_self c ds')
    simp only [List.cons_append]
    unfold Address.parseHexRun
    rw [hck, (digit_facts k hk).1]
    dsimp only
    have hoff3 : ¬3 < off := by simp at h4; omega
    rw [if_neg hoff3]
    have hacck : acc * 16 + k < 16 ^ (off + 1) := by
      rw [pow_succ]
      omega
    have hnool : ¬65535 < acc * 16 + k := by
      have h16o : (16 : Nat) ^ (off + 1) ≤ 16 ^ 4 :=
        Nat.pow_le_pow_right (by omega) (by simp at h4; omega)
      norm_num at h16o
      omega
    rw [if_neg hnool]
    have := ih (acc * 16 + k) (off + 1) r
      (fun x hx => hds x (List.mem_cons_of_mem c hx))
      (by simp at h4 ⊢; omega) (by omega) hacck hr
    rw [this]
    simp only [List.foldl_cons, hck, (digit_facts k hk).1, Option.getD_some,
      List.length_cons, Option.some.injEq, Prod.mk.injEq]
    exact ⟨trivial, by omega, trivial⟩

/-- parseHexRun on a rendered hextet followed by a non-hex char. -/
theorem parseHexRun_group (g : Nat) (hg : g < 65536) (r : List Char)
    (hr : ∀ c rr, r = c :: rr → hexVal c = none) :
    Address.parseHexRun 0 0 (natToHexChars g ++ r) =
      some (g, (natToHexChars g).length, r) := by
  have hlen : (natToHexChars g).length ≤ 4 := by
    unfold natToHexChars
    exact hexAux_length_le 4 (g + 1) g (by omega) (by norm_num; omega) (by omega)
  have hne : natToHexChars g ≠ [] := hexAux_ne_nil (g + 1) g (by omega)
  have hdigs : ∀ c ∈ natToHexChars g, ∃ k, k < 16 ∧ c = digitChar k :=
    hexAux_digits (g + 1) g (by omega)
  have h1 : 1 ≤ (natToHexChars g).length := by
    cases hc : natToHexChars g with
    | nil => exact absurd hc hne
    | cons x xs => simp
  rw [parseHexRun_digits (natToHexChars g) 0 0 r hdigs (by omega) (by omega)
    (by simp) hr]
  unfold natToHexChars
  rw [hexAux_foldl (g + 1) g 0 (by omega)]
  simp

/-- The chars of a colon-joined run of rendered hextets. -/
def gsChars (gs : List Nat) : List Char :=
  joinChars ':' (gs.map natToHexChars)

/-- The bytes the IPv6 loop stores for a run of hextets. -/
def bytesOfGroups : List Nat → List Nat
  | [] => []
  | g :: gs => g >>> 8 :: (g &&& 255) :: bytesOfGroups gs

/-- bytesOfGroups stores two bytes per hextet. -/
theorem bytesOfGroups_length : ∀ gs, (bytesOfGroups gs).length = 2 * gs.length := by
  intro gs
  induction gs with
  | nil => rfl
  | cons g t ih => simp [bytesOfGroups, ih]; omega

/-- gsChars of a single group. -/
theorem gsChars_one (g : Nat) : gsChars [g] = natToHexChars g := rfl

/-- gsChars of two or more groups. -/
theorem gsChars_cons (g g2 : Nat) (t : List Nat) :
    gsChars (g :: g2 :: t) = natToHexChars g ++ ':' :: gsChars (g2 :: t) := rfl

/-- A rendered hextet is at least one char. -/
theorem hexChars_len_ge1 (g : Nat) : 1 ≤ (natToHexChars g).length := by
  have hne := hexAux_ne_nil (g + 1) g (by omega)
  unfold natToHexChars
  cases hc : hexAux (g + 1) g with
  | nil => exact absurd hc hne
  | cons x xs => simp

/-- A joined run of hextets starts with a digit char. -/
theorem gsChars_head (g : Nat) (gs : List Nat) (hg : g < 65536) :
    ∃ k t2, k < 16 ∧ gsChars (g :: gs) = digitChar k :: t2 := by
  have hne := hexAux_ne_nil (g + 1) g (by omega)
  obtain ⟨c, t, hct⟩ := List.exists_cons_of_ne_nil hne
  obtain ⟨k, hk, hck⟩ := hexAux_digits (g + 1) g (by omega) c
    (by rw [hct]; exact List.mem_cons_self c t)
  cases gs with
  | nil =>
    refine ⟨k, t, hk, ?_⟩
    rw [gsChars_one]
    unfold natToHexChars
    rw [hct, hck]
  | cons g2 t3 =>
    refine ⟨k, t ++ ':' :: gsChars (g2 :: t3), hk, ?_⟩
    rw [gsChars_cons]
    unfold natToHexChars
    rw [hct, hck]
    simp

/-- A run of hextets is at least one char long. -/
theorem gsChars_len_ge (g : Nat) (gs : List Nat) :
    1 ≤ (gsChars (g :: gs)).length := by
  have hne := hexAux_ne_nil (g + 1) g (by omega)
  cases gs with
  | nil =>
    rw [gsChars_one]
    unfold natToHexChars
    cases hc : hexAux (g + 1) g with
    | nil => exact absurd hc hne
    | cons x xs => simp
  | cons g2 t =>
    rw [gsChars_cons]
    simp only [List.length_append, List.length_cons]
    omega

/-- The loop consumes a whole colon-joined run of hextets and stores their
bytes, leaving the ellipsis state alone. -/
theorem v6Loop_groups :
    ∀ gs fuel acc ell,
      gs ≠ [] → (∀ g ∈ gs, g < 65536) →
      acc.length + 2 * gs.length ≤ 16 →
      (gsChars gs).length < fuel →
      Address.v6Loop fuel (gsChars gs) acc ell =
        some (acc ++ bytesOfGroups gs, ell, []) := by
  intro gs
  induction gs with
  | nil => intro fuel acc ell h; exact absurd rfl h
  | cons g gs' ih =>
    intro fuel acc ell hne hlt hlen hfuel
    have hg : g < 65536 := hlt g (List.mem_cons_self g gs')
    cases fuel with
    | zero => exact absurd hfuel (by omega)
    | succ fuel' =>
      unfold Address.v6Loop
      have hacc16 : ¬16 ≤ acc.length := by
        simp only [List.length_cons] at hlen
        omega
      rw [if_neg hacc16]
      cases gs' with
      | nil =>
        rw [show gsChars [g] = natToHexChars g ++ [] by
          rw [gsChars_one]; simp]
        rw [parseHexRun_group g hg [] (by intro c rr h; exact absurd h (by simp))]
        dsimp only
        rw [if_neg (by simp)]
        simp [bytesOfGroups]
      | cons g2 t =>
        rw [gsChars_cons]
        rw [parseHexRun_group g hg (':' :: gsChars (g2 :: t))
          (by intro c rr h
              rw [List.cons.injEq] at h
              rw [← h.1]
              decide)]
        dsimp only
        rw [if_neg (by simp)]
        obtain ⟨k2, t2, hk2, hgc⟩ := gsChars_head g2 t
          (hlt g2 (List.mem_cons_of_mem g (List.mem_cons_self g2 t)))
        rw [hgc]
        rw [if_neg (by decide : ¬(':' : Char) ≠ ':')]
        split
        · rename_i heq
          exact List.noConfusion heq
        · rename_i rest2 heq
          rw [List.cons.injEq] at heq
          have hdk : digitChar k2 ≠ ':' := (digit_facts k2 hk2).2.1
          exact absurd heq.1 hdk
        · rename_i c2 rest2 heq
          rw [← heq, ← hgc]
          have hres := ih fuel' (acc ++ [g >>> 8, g &&& 255]) ell
            (List.cons_ne_nil g2 t)
            (fun x hx => hlt x (List.mem_cons_of_mem g hx))
            (by simp only [List.length_append, List.length_cons,
                  List.length_nil] at hlen ⊢
                omega)
            (by rw [gsChars_cons] at hfuel
                simp only [List.length_append, List.length_cons] at hfuel
                have h1 := hexChars_len_ge1 g
                omega)
          rw [hres]
          simp [bytesOfGroups, List.append_assoc]

/-- The leading digit of a nonzero hex rendering is a nonzero digit. -/
theorem hexAux_head_nz : ∀ fuel n, n < fuel → n ≠ 0 →
    ∃ k t, k < 16 ∧ k ≠ 0 ∧ hexAux fuel n = digitChar k :: t := by
  intro fuel
  induction fuel with
  | zero => intro n hn; omega
  | succ fuel ih =>
    intro n hn hnz
    unfold hexAux
    split
    · rename_i h16
      exact ⟨n, [], h16, hnz, rfl⟩
    · rename_i h16
      obtain ⟨k, t, hk, hknz, hh⟩ := ih (n / 16) (by omega) (by
        intro h0
        rw [Nat.div_eq_zero_iff (by omega)] at h0
        omega)
      exact ⟨k, t ++ [digitChar (n % 16)], hk, hknz, by rw [hh]; simp⟩

/-- A nonzero hextet renders with a leading nonzero digit. -/
theorem natToHexChars_head_nz (g : Nat) (hg : g ≠ 0) :
    ∃ k t, k < 16 ∧ k ≠ 0 ∧ natToHexChars g = digitChar k :: t :=
  hexAux_head_nz (g + 1) g (by omega) hg

/-- The zero hextet renders as the single zero char. -/
theorem natToHexChars_zero : natToHexChars 0 = ['0'] := by decide

/-- bytesOfGroups of a single group. -/
theorem bytesOfGroups_one (g : Nat) :
    bytesOfGroups [g] = [g >>> 8, g &&& 255] := rfl

/-- The loop consumes a colon-joined run of hextets that ends in "::",
recording the ellipsis position at the end. -/
theorem v6Loop_groupsEnd :
    ∀ gs fuel acc,
      gs ≠ [] → (∀ g ∈ gs, g < 65536) →
      acc.length + 2 * gs.length ≤ 16 →
      (gsChars gs).length + 2 < fuel →
      Address.v6Loop fuel (gsChars gs ++ [':', ':']) acc none =
        some (acc ++ bytesOfGroups gs, some (acc.length + 2 * gs.length), []) := by
  intro gs
  induction gs with
  | nil => intro fuel acc h; exact absurd rfl h
  | cons g gs' ih =>
    intro fuel acc hne hlt hlen hfuel
    have hg : g < 65536 := hlt g (List.mem_cons_self g gs')
    cases fuel with
    | zero => exact absurd hfuel (by omega)
    | succ fuel' =>
      unfold Address.v6Loop
      have hacc16 : ¬16 ≤ acc.length := by
        simp only [List.length_cons] at hlen
        omega
      rw [if_neg hacc16]
      cases gs' with
      | nil =>
        rw [show gsChars [g] ++ [':', ':'] = natToHexChars g ++ [':', ':'] by
          rw [gsChars_one]]
        rw [parseHexRun_group g hg [':', ':']
          (by intro c rr h
              rw [List.cons.injEq] at h
              rw [← h.1]
              decide)]
        dsimp only
        rw [if_neg (by decide)]
        rw [if_neg (by decide : ¬(':' : Char) ≠ ':')]
        split
        · rename_i heq
          exact List.noConfusion heq
        · rename_i rest2 heq
          rw [List.cons.injEq] at heq
          rw [if_neg (by decide : ¬(none : Option Nat).isSome = true)]
          rw [← heq.2]
          rw [if_pos rfl]
          have hL : (acc ++ [g >>> 8, g &&& 255]).length =
              acc.length + 2 * [g].length := by
            simp
          rw [hL, bytesOfGroups_one]
        · rename_i c2 rest2 hcne heq
          rw [List.cons.injEq] at heq
          exact absurd heq.1.symm (fun h => hcne h)
      | cons g2 t =>
        rw [gsChars_cons, List.append_assoc, List.cons_append]
        rw [parseHexRun_group g hg (':' :: (gsChars (g2 :: t) ++ [':', ':']))
          (by intro c rr h
              rw [List.cons.injEq] at h
              rw [← h.1]
              decide)]
        dsimp only
        rw [if_neg (by simp)]
        rw [if_neg (by decide : ¬(':' : Char) ≠ ':')]
        obtain ⟨k2, t2, hk2, hgc⟩ := gsChars_head g2 t
          (hlt g2 (List.mem_cons_of_mem g (List.mem_cons_self g2 t)))
        rw [hgc, List.cons_append]
        split
        · rename_i heq
          exact List.noConfusion heq
        · rename_i rest2 heq
          rw [List.cons.injEq] at heq
          have hdk : digitChar k2 ≠ ':' := (digit_facts k2 hk2).2.1
          exact absurd heq.1 hdk
        · rename_i c2 rest2 heq
          rw [← heq, ← List.cons_append, ← hgc]
          have hres := ih fuel' (acc ++ [g >>> 8, g &&& 255])
            (List.cons_ne_nil g2 t)
            (fun x hx => hlt x (List.mem_cons_of_mem g hx))
            (by simp only [List.length_append, List.length_cons,
                  List.length_nil] at hlen ⊢
                omega)
            (by rw [gsChars_cons] at hfuel
                simp only [List.length_append, List.length_cons] at hfuel
                have h1 := hexChars_len_ge1 g
                omega)
          rw [hres]
          have hL : (acc ++ [g >>> 8, g &&& 255]).length + 2 * (g2 :: t).length =
              acc.length + 2 * (g :: g2 :: t).length := by
            simp only [List.length_append, List.length_cons, List.length_nil]
            omega
          rw [hL]
          simp [bytesOfGroups, List.append_assoc]

/-- The loop consumes a run of hextets, a "::" and a second run of hextets,
recording the ellipsis position between the runs. -/
theorem v6Loop_groupsMid :
    ∀ pre fuel acc post,
      pre ≠ [] → post ≠ [] →
      (∀ g ∈ pre, g < 65536) → (∀ g ∈ post, g < 65536) →
      acc.length + 2 * pre.length + 2 * post.length ≤ 16 →
      (gsChars pre).length + 2 + (gsChars post).length < fuel →
      Address.v6Loop fuel (gsChars pre ++ ':' :: ':' :: gsChars post) acc none =
        some (acc ++ bytesOfGroups pre ++ bytesOfGroups post,
          some (acc.length + 2 * pre.length), []) := by
  intro pre
  induction pre with
  | nil => intro fuel acc post h; exact absurd rfl h
  | cons g gs' ih =>
    intro fuel acc post hne hpost hlt hltp hlen hfuel
    have hg : g < 65536 := hlt g (List.mem_cons_self g gs')
    obtain ⟨p, ps, hpp⟩ := List.exists_cons_of_ne_nil hpost
    have hgsp : gsChars post ≠ [] := by
      rw [hpp]
      have := gsChars_len_ge p ps
      intro h0
      rw [h0] at this
      simp at this
    cases fuel with
    | zero => exact absurd hfuel (by omega)
    | succ fuel' =>
      unfold Address.v6Loop
      have hacc16 : ¬16 ≤ acc.length := by
        simp only [List.length_cons] at hlen
        omega
      rw [if_neg hacc16]
      cases gs' with
      | nil =>
        rw [show gsChars [g] ++ ':' :: ':' :: gsChars post =
            natToHexChars g ++ ':' :: ':' :: gsChars post by rw [gsChars_one]]
        rw [parseHexRun_group g hg (':' :: ':' :: gsChars post)
          (by intro c rr h
              rw [List.cons.injEq] at h
              rw [← h.1]
              decide)]
        dsimp only
        rw [if_neg (by simp)]
        rw [if_neg (by decide : ¬(':' : Char) ≠ ':')]
        split
        · rename_i heq
          exact List.noConfusion heq
        · rename_i rest2 heq
          rw [List.cons.injEq] at heq
          rw [if_neg (by decide : ¬(none : Option Nat).isSome = true)]
          rw [← heq.2]
          rw [if_neg hgsp]
          have hres := v6Loop_groups post fuel' (acc ++ [g >>> 8, g &&& 255])
            (some (acc ++ [g >>> 8, g &&& 255]).length)
            hpost hltp
            (by simp only [List.length_append, List.length_cons,
                  List.length_nil] at hlen ⊢
                omega)
            (by rw [gsChars_one] at hfuel
                omega)
          rw [hres]
          have hL : (acc ++ [g >>> 8, g &&& 255]).length =
              acc.length + 2 * [g].length := by
            simp
          rw [hL]
          simp [bytesOfGroups_one, List.append_assoc]
        · rename_i c2 rest2 hcne heq
          rw [List.cons.injEq] at heq
          exact absurd heq.1.symm (fun h => hcne h)
      | cons g2 t =>
        rw [gsChars_cons, List.append_assoc, List.cons_append]
        rw [parseHexRun_group g hg
          (':' :: (gsChars (g2 :: t) ++ ':' :: ':' :: gsChars post))
          (by intro c rr h
              rw [List.cons.injEq] at h
              rw [← h.1]
              decide)]
        dsimp only
        rw [if_neg (by simp)]
        rw [if_neg (by decide : ¬(':' : Char) ≠ ':')]
        obtain ⟨k2, t2, hk2, hgc⟩ := gsChars_head g2 t
          (hlt g2 (List.mem_cons_of_mem g (List.mem_cons_self g2 t)))
        rw [hgc, List.cons_append]
        split
        · rename_i heq
          exact List.noConfusion heq
        · rename_i rest2 heq
          rw [List.cons.injEq] at heq
          have hdk : digitChar k2 ≠ ':' := (digit_facts k2 hk2).2.1
          exact absurd heq.1 hdk
        · rename_i c2 rest2 heq
          rw [← heq, ← List.cons_append, ← hgc]
          have hres := ih fuel' (acc ++ [g >>> 8, g &&& 255]) post
            (List.cons_ne_nil g2 t) hpost
            (fun x hx => hlt x (List.mem_cons_of_mem g hx)) hltp
            (by simp only [List.length_append, List.length_cons,
                  List.length_nil] at hlen ⊢
                omega)
            (by rw [gsChars_cons] at hfuel
                simp only [List.length_append, List.length_cons] at hfuel
                have h1 := hexChars_len_ge1 g
                omega)
          rw [hres]
          have hL : (acc ++ [g >>> 8, g &&& 255]).length + 2 * (g2 :: t).length =
              acc.length + 2 * (g :: g2 :: t).length := by
            simp only [List.length_append, List.length_cons, List.length_nil]
            omega
          rw [hL]
          simp [bytesOfGroups, List.append_assoc]

/-- Splitting bytes into hextets and flattening the hextets back is the
identity on even-length byte lists. -/
theorem hexPairs_sound : ∀ bs : List Nat, (∀ b ∈ bs, b < 256) →
    bs.length % 2 = 0 → bytesOfGroups (hexPairs bs) = bs := by
  intro bs
  induction bs using hexPairs.induct with
  | case1 b1 b2 rest ih =>
    intro hb hev
    have hb1 : b1 < 256 := hb b1 (List.mem_cons_self _ _)
    have hb2 : b2 < 256 := hb b2 (List.mem_cons_of_mem _ (List.mem_cons_self _ _))
    have hv : (b1 <<< 8) ||| b2 = b1 * 256 + b2 := shiftOr_eq b1 b2 hb2
    have hhi : ((b1 <<< 8) ||| b2) >>> 8 = b1 := by
      rw [hv, Nat.shiftRight_eq_div_pow]
      norm_num
      omega
    have hlo : ((b1 <<< 8) ||| b2) &&& 255 = b2 := by
      rw [hv]
      rw [show (255 : Nat) = 2 ^ 8 - 1 by norm_num]
      rw [Nat.and_pow_two_sub_one_eq_mod]
      norm_num
      omega
    show bytesOfGroups (((b1 <<< 8) ||| b2) :: hexPairs rest) = b1 :: b2 :: rest
    rw [show bytesOfGroups (((b1 <<< 8) ||| b2) :: hexPairs rest) =
      ((b1 <<< 8) ||| b2) >>> 8 :: (((b1 <<< 8) ||| b2) &&& 255) ::
        bytesOfGroups (hexPairs rest) from rfl]
    rw [hhi, hlo]
    rw [ih (fun x hx => hb x (List.mem_cons_of_mem _ (List.mem_cons_of_mem _ hx)))
      (by simp only [List.length_cons] at hev; omega)]
  | case2 t hnot =>
    intro hb hev
    match t, hnot with
    | [], _ => rfl
    | [b], h =>
      simp only [List.length_cons, List.length_nil] at hev
      omega
    | b1 :: b2 :: r, h => exact absurd rfl (fun hh => h b1 b2 r hh)

/-- Every hextet extracted from bytes below 256 is below 65536. -/
theorem hexPairs_lt : ∀ bs : List Nat, (∀ b ∈ bs, b < 256) →
    ∀ g ∈ hexPairs bs, g < 65536 := by
  intro bs
  induction bs using hexPairs.induct with
  | case1 b1 b2 rest ih =>
    intro hb g hg
    have hb1 : b1 < 256 := hb b1 (List.mem_cons_self _ _)
    have hb2 : b2 < 256 := hb b2 (List.mem_cons_of_mem _ (List.mem_cons_self _ _))
    rw [show hexPairs (b1 :: b2 :: rest) =
      ((b1 <<< 8) ||| b2) :: hexPairs rest from rfl] at hg
    rcases List.mem_cons.mp hg with hg | hg
    · rw [hg, shiftOr_eq b1 b2 hb2]
      omega
    · exact ih (fun x hx => hb x
        (List.mem_cons_of_mem _ (List.mem_cons_of_mem _ hx))) g hg
  | case2 t hnot =>
    intro hb g hg
    match t, hnot with
    | [], _ => exact absurd hg (by simp [hexPairs])
    | [b], _ => exact absurd hg (by simp [hexPairs])
    | b1 :: b2 :: r, h => exact absurd rfl (fun hh => h b1 b2 r hh)

/-- hexPairs halves the length. -/
theorem hexPairs_length : ∀ bs : List Nat,
    (hexPairs bs).length = bs.length / 2 := by
  intro bs
  induction bs using hexPairs.induct with
  | case1 b1 b2 rest ih =>
    rw [show hexPairs (b1 :: b2 :: rest) =
      ((b1 <<< 8) ||| b2) :: hexPairs rest from rfl]
    simp only [List.length_cons, ih]
    omega
  | case2 t hnot =>
    match t, hnot with
    | [], _ => rfl
    | [b], _ => simp [hexPairs]
    | b1 :: b2 :: r, h => exact absurd rfl (fun hh => h b1 b2 r hh)

/-- bytesOfGroups distributes over append. -/
theorem bytesOfGroups_append : ∀ xs ys : List Nat,
    bytesOfGroups (xs ++ ys) = bytesOfGroups xs ++ bytesOfGroups ys := by
  intro xs ys
  induction xs with
  | nil => rfl
  | cons g t ih => simp [bytesOfGroups, ih]

/-- bytesOfGroups turns a run of zero hextets into twice as many zero bytes. -/
theorem bytesOfGroups_replicate (k : Nat) :
    bytesOfGroups (List.replicate k 0) = List.replicate (2 * k) 0 := by
  induction k with
  | zero => rfl
  | succ k ih =>
    rw [List.replicate_succ, show bytesOfGroups (0 :: List.replicate k 0) =
      0 >>> 8 :: (0 &&& 255) :: bytesOfGroups (List.replicate k 0) from rfl]
    rw [ih, show (0 : Nat) >>> 8 = 0 from rfl, show (0 : Nat) &&& 255 = 0 from rfl]
    rw [show 2 * (k + 1) = 2 * k + 1 + 1 by omega]
    rw [List.replicate_succ, List.replicate_succ]

/-- countColonZeros stops at a non-colon head. -/
theorem ccz_stop_head (c : Char) (r : List Char) (h : c ≠ ':') :
    countColonZeros (c :: r) = 0 := by
  unfold countColonZeros
  split
  · rename_i rest heq
    rw [List.cons.injEq] at heq
    exact absurd heq.1 h
  · rfl

/-- countColonZeros stops at a colon followed by a non-zero char. -/
theorem ccz_stop_snd (c : Char) (r : List Char) (h : c ≠ '0') :
    countColonZeros (':' :: c :: r) = 0 := by
  unfold countColonZeros
  split
  · rename_i rest heq
    rw [List.cons.injEq, List.cons.injEq] at heq
    exact absurd heq.2.1 h
  · rfl

/-- countColonZeros of the empty list. -/
theorem ccz_nil : countColonZeros [] = 0 := rfl

/-- The chars of the (:0)* regex piece repeated j times. -/
def zcs : Nat → List Char
  | 0 => []
  | j + 1 => ':' :: '0' :: zcs j

/-- Length of the repeated piece. -/
theorem zcs_length : ∀ j, (zcs j).length = 2 * j := by
  intro j
  induction j with
  | zero => rfl
  | succ j ih => simp only [zcs, List.length_cons, ih]; omega

/-- The greedy count over the repeated piece. -/
theorem ccz_zcs : ∀ j t, countColonZeros (zcs j ++ t) = j + countColonZeros t := by
  intro j
  induction j with
  | zero => intro t; simp [zcs]
  | succ j ih =>
    intro t
    show countColonZeros (':' :: '0' :: (zcs j ++ t)) = (j + 1) + countColonZeros t
    rw [show countColonZeros (':' :: '0' :: (zcs j ++ t)) =
      countColonZeros (zcs j ++ t) + 1 from rfl]
    rw [ih t]
    omega

/-- A run of zero hextets renders as "0" then ":0" repeated. -/
theorem gsChars_zeros_end : ∀ k, gsChars (List.replicate (k + 1) 0) = '0' :: zcs k := by
  intro k
  induction k with
  | zero => rw [show List.replicate 1 0 = [0] from rfl, gsChars_one, natToHexChars_zero]; rfl
  | succ k ih =>
    rw [List.replicate_succ, List.replicate_succ, gsChars_cons, natToHexChars_zero,
      ← List.replicate_succ, ih]
    rfl

/-- A run of zero hextets followed by more groups renders as "0" then ":0"
repeated, then a colon and the rest. -/
theorem gsChars_zeros_mid : ∀ k post, post ≠ [] →
    gsChars (List.replicate (k + 1) 0 ++ post) =
      '0' :: (zcs k ++ ':' :: gsChars post) := by
  intro k
  induction k with
  | zero =>
    intro post hp
    obtain ⟨p, ps, rfl⟩ := List.exists_cons_of_ne_nil hp
    rw [show List.replicate 1 0 ++ p :: ps = 0 :: p :: ps from rfl]
    rw [gsChars_cons, natToHexChars_zero]
    rfl
  | succ k ih =>
    intro post hp
    rw [List.replicate_succ, List.cons_append, List.replicate_succ,
      List.cons_append, gsChars_cons, ← List.cons_append, ← List.replicate_succ,
      ih post hp, natToHexChars_zero]
    rfl

/-- The regex body consumes a zero run that reaches the end of the string. -/
theorem zrb_zcs_end (k : Nat) : zeroRunBody ('0' :: zcs k) = some (1 + 2 * k) := by
  unfold zeroRunBody
  split
  · rename_i rest heq
    rw [List.cons.injEq] at heq
    rw [← heq.2]
    dsimp only
    rw [show countColonZeros (zcs k) = k from by
      have := ccz_zcs k []
      rw [List.append_nil, ccz_nil] at this
      omega]
    rw [show List.drop (2 * k) (zcs k) = [] from by
      rw [← zcs_length k, List.drop_length]]
  · rename_i guard
    exact absurd rfl (fun hh => guard _ hh)

/-- The regex body consumes a zero run followed by a colon and a non-zero
char, including the trailing colon. -/
theorem zrb_zcs_mid (k : Nat) (d : Char) (t : List Char) (hd : d ≠ '0') :
    zeroRunBody ('0' :: (zcs k ++ ':' :: d :: t)) = some (1 + 2 * k + 1) := by
  unfold zeroRunBody
  split
  · rename_i rest heq
    rw [List.cons.injEq] at heq
    rw [← heq.2]
    dsimp only
    rw [show countColonZeros (zcs k ++ ':' :: d :: t) = k from by
      rw [ccz_zcs k, ccz_stop_snd d t hd]
      omega]
    rw [show List.drop (2 * k) (zcs k ++ ':' :: d :: t) = ':' :: d :: t from by
      rw [← zcs_length k, List.drop_left]]
    rfl
  · rename_i guard
    exact absurd rfl (fun hh => guard _ hh)

/-- The regex body does not match at a head that is not the zero char. -/
theorem zrb_none_head (c : Char) (r : List Char) (h : c ≠ '0') :
    zeroRunBody (c :: r) = none := by
  unfold zeroRunBody
  split
  · rename_i rest heq
    rw [List.cons.injEq] at heq
    exact absurd heq.1 h
  · rfl

/-- The scan passes one char that is not a colon. -/
theorem collapseScan_cons_ne (c : Char) (x : List Char) (h : c ≠ ':') :
    collapseScan (c :: x) = c :: collapseScan x := by
  conv_lhs => unfold collapseScan
  rw [if_neg h]

/-- The scan leaves a run of non-colon chars in place. -/
theorem collapseScan_nocolon : ∀ ds r : List Char, (∀ c ∈ ds, c ≠ ':') →
    collapseScan (ds ++ r) = ds ++ collapseScan r := by
  intro ds
  induction ds with
  | nil => intro r _; rfl
  | cons c t ih =>
    intro r h
    rw [List.cons_append]
    rw [collapseScan_cons_ne c (t ++ r) (h c (List.mem_cons_self c t))]
    rw [ih r (fun x hx => h x (List.mem_cons_of_mem c hx))]
    rfl

/-- The scan passes a colon whose tail has no regex-body match. -/
theorem collapseScan_colon_none (r : List Char) (h : zeroRunBody r = none) :
    collapseScan (':' :: r) = ':' :: collapseScan r := by
  conv_lhs => unfold collapseScan
  rw [if_pos rfl, h]

/-- The scan fires at a colon whose tail matches the regex body. -/
theorem collapseScan_colon_some (r : List Char) (m : Nat)
    (h : zeroRunBody r = some m) :
    collapseScan (':' :: r) = ':' :: ':' :: r.drop m := by
  conv_lhs => unfold collapseScan
  rw [if_pos rfl, h]

/-- Rendered hextets contain no colon. -/
theorem natToHexChars_no_colon (g : Nat) : ∀ c ∈ natToHexChars g, c ≠ ':' := by
  intro c hc
  obtain ⟨k, hk, hck⟩ := hexAux_digits (g + 1) g (by omega) c hc
  rw [hck]
  exact (digit_facts k hk).2.1

/-- A run headed by a nonzero hextet starts with a char that is neither the
zero char nor a colon. -/
theorem gsChars_head_nz (g : Nat) (gs : List Nat) (hnz : g ≠ 0) :
    ∃ c t, c ≠ '0' ∧ c ≠ ':' ∧ gsChars (g :: gs) = c :: t := by
  obtain ⟨k, t, hk, hknz, hh⟩ := natToHexChars_head_nz g hnz
  have hc0 : digitChar k ≠ '0' := (digit_facts k hk).2.2.2.2.2.2.2.2.2.1 hknz
  have hcc : digitChar k ≠ ':' := (digit_facts k hk).2.1
  cases gs with
  | nil =>
    refine ⟨digitChar k, t, hc0, hcc, ?_⟩
    rw [gsChars_one, hh]
  | cons g2 t3 =>
    refine ⟨digitChar k, t ++ ':' :: gsChars (g2 :: t3), hc0, hcc, ?_⟩
    rw [gsChars_cons, hh, List.cons_append]

/-- Joining runs of hextets. -/
theorem gsChars_append : ∀ xs ys : List Nat, xs ≠ [] → ys ≠ [] →
    gsChars (xs ++ ys) = gsChars xs ++ ':' :: gsChars ys := by
  intro xs
  induction xs with
  | nil => intro ys h; exact absurd rfl h
  | cons x t ih =>
    intro ys _ hys
    cases t with
    | nil =>
      obtain ⟨y, ys', rfl⟩ := List.exists_cons_of_ne_nil hys
      rw [List.singleton_append, gsChars_cons, gsChars_one]
    | cons x2 t2 =>
      rw [List.cons_append, List.cons_append, gsChars_cons, ← List.cons_append,
        ih ys (List.cons_ne_nil x2 t2) hys, gsChars_cons]
      simp [List.append_assoc]

/-- The scan leaves a run of nonzero hextets unchanged. -/
theorem collapseScan_gs : ∀ gs : List Nat, gs ≠ [] →
    (∀ g ∈ gs, g ≠ 0) →
    collapseScan (gsChars gs) = gsChars gs := by
  intro gs
  induction gs with
  | nil => intro h; exact absurd rfl h
  | cons g t ih =>
    intro _ hnz
    cases t with
    | nil =>
      rw [gsChars_one]
      have := collapseScan_nocolon (natToHexChars g) []
        (natToHexChars_no_colon g)
      rw [List.append_nil] at this
      rw [this, show collapseScan ([] : List Char) = [] from rfl, List.append_nil]
    | cons g2 t2 =>
      rw [gsChars_cons]
      rw [collapseScan_nocolon (natToHexChars g) (':' :: gsChars (g2 :: t2))
        (natToHexChars_no_colon g)]
      obtain ⟨c, ct, hc0, hcc, hgc⟩ := gsChars_head_nz g2 t2
        (hnz g2 (List.mem_cons_of_mem g (List.mem_cons_self g2 t2)))
      rw [collapseScan_colon_none _ (by rw [hgc]; exact zrb_none_head c ct hc0)]
      rw [ih (List.cons_ne_nil g2 t2)
        (fun x hx => hnz x (List.mem_cons_of_mem g hx))]

/-- The scan over a run of nonzero hextets, a colon and a matching tail
fires exactly at that colon. -/
theorem collapseScan_pre : ∀ pre : List Nat, ∀ Z : List Char, ∀ m : Nat,
    pre ≠ [] → (∀ g ∈ pre, g ≠ 0) →
    zeroRunBody Z = some m →
    collapseScan (gsChars pre ++ ':' :: Z) =
      gsChars pre ++ ':' :: ':' :: Z.drop m := by
  intro pre
  induction pre with
  | nil => intro Z m h; exact absurd rfl h
  | cons g t ih =>
    intro Z m _ hnz hZ
    cases t with
    | nil =>
      rw [gsChars_one]
      rw [collapseScan_nocolon (natToHexChars g) (':' :: Z)
        (natToHexChars_no_colon g)]
      rw [collapseScan_colon_some Z m hZ]
    | cons g2 t2 =>
      rw [gsChars_cons, List.append_assoc, List.cons_append]
      rw [collapseScan_nocolon (natToHexChars g)
        (':' :: (gsChars (g2 :: t2) ++ ':' :: Z)) (natToHexChars_no_colon g)]
      obtain ⟨c, ct, hc0, hcc, hgc⟩ := gsChars_head_nz g2 t2
        (hnz g2 (List.mem_cons_of_mem g (List.mem_cons_self g2 t2)))
      rw [collapseScan_colon_none _
        (by rw [hgc, List.cons_append]; exact zrb_none_head c _ hc0)]
      rw [ih Z m (List.cons_ne_nil g2 t2)
        (fun x hx => hnz x (List.mem_cons_of_mem g hx)) hZ]
      simp [List.append_assoc]

/-- Extract the leading zero run of a list of groups. -/
theorem zrun_extract : ∀ l : List Nat, ∃ k post,
    l = List.replicate k 0 ++ post ∧ (∀ p ps, post = p :: ps → p ≠ 0) := by
  intro l
  induction l with
  | nil =>
    exact ⟨0, [], rfl, by intro p ps h; exact absurd h (by simp)⟩
  | cons g t ih =>
    by_cases hg : g = 0
    · obtain ⟨k, post, hpost, hhead⟩ := ih
      refine ⟨k + 1, post, ?_, hhead⟩
      rw [List.replicate_succ, List.cons_append, ← hpost, hg]
    · refine ⟨0, g :: t, rfl, ?_⟩
      intro p ps h
      rw [List.cons.injEq] at h
      rw [← h.1]
      exact hg

/-- Either no group is zero, or the groups split at the first zero into a
zero-free prefix, a maximal zero run and a tail not starting with zero. -/
theorem groups_split : ∀ gs : List Nat,
    (∀ g ∈ gs, g ≠ 0) ∨
    ∃ pre k post, gs = pre ++ List.replicate (k + 1) 0 ++ post ∧
      (∀ g ∈ pre, g ≠ 0) ∧ (∀ p ps, post = p :: ps → p ≠ 0) := by
  intro gs
  induction gs with
  | nil => exact Or.inl (by intro g h; exact absurd h (by simp))
  | cons g t ih =>
    by_cases hg : g = 0
    · right
      obtain ⟨k, post, hsp, hhead⟩ := zrun_extract t
      refine ⟨[], k, post, ?_, by intro x hx; exact absurd hx (by simp), hhead⟩
      rw [List.nil_append, List.replicate_succ, List.cons_append, ← hsp, hg]
    · rcases ih with hall | ⟨pre, k, post, hsp, hpre, hhead⟩
      · left
        intro x hx
        rcases List.mem_cons.mp hx with rfl | hx
        · exact hg
        · exact hall x hx
      · right
        refine ⟨g :: pre, k, post, ?_, ?_, hhead⟩
        · rw [hsp]; simp
        · intro x hx
          rcases List.mem_cons.mp hx with rfl | hx
          · exact hg
          · exact hpre x hx

/-- Dropping the matched zero run plus its closing colon. -/
theorem drop_zrun_mid (k : Nat) (X : List Char) :
    List.drop (1 + 2 * k + 1) ('0' :: (zcs k ++ ':' :: X)) = X := by
  rw [show ('0' :: (zcs k ++ ':' :: X)) = (('0' :: zcs k) ++ [':']) ++ X by simp]
  exact List.drop_left' (by
    simp only [List.length_append, List.length_cons, zcs_length, List.length_nil]
    omega)

/-- Dropping the matched zero run that reaches the end. -/
theorem drop_zrun_end (k : Nat) :
    List.drop (1 + 2 * k) ('0' :: zcs k) = [] := by
  apply List.drop_eq_nil_of_le
  simp only [List.length_cons, zcs_length]
  omega

/-- parseIPv6Main falls through to the tail parser when the input does not
start with two colons. -/
theorem parseIPv6Main_fallback (c : Char) (ct : List Char) (zone : String)
    (hc : c ≠ ':') :
    Address.parseIPv6Main (c :: ct) zone =
      Address.parseIPv6Tail (c :: ct) [] none zone := by
  unfold Address.parseIPv6Main
  split
  · rename_i rest heq
    rw [List.cons.injEq] at heq
    exact absurd heq.1 hc
  · rfl

/-- parseIPv6Main on a leading "::" with a nonempty tail. -/
theorem parseIPv6Main_ell (T : List Char) (zone : String) (hT : T ≠ []) :
    Address.parseIPv6Main (':' :: ':' :: T) zone =
      Address.parseIPv6Tail T [] (some 0) zone := by
  unfold Address.parseIPv6Main
  split
  · rename_i rest heq
    rw [List.cons.injEq, List.cons.injEq] at heq
    rw [← heq.2.2]
    rw [if_neg hT]
  · rename_i guard
    exact absurd rfl (fun hh => guard T hh)

/-- Case of the round trip with no zero hextet: the rendering collapses
nothing and the loop reads all eight groups back. -/
theorem parse_caseA (gs : List Nat) (zone : String)
    (h8 : gs.length = 8) (hlt : ∀ g ∈ gs, g < 65536) (hnz : ∀ g ∈ gs, g ≠ 0) :
    Address.parseIPv6Main (collapseZeroRunChars (gsChars gs)) zone =
      some ⟨bytesOfGroups gs, zone⟩ := by
  have hne : gs ≠ [] := by intro h; rw [h] at h8; simp at h8
  obtain ⟨g, t, rfl⟩ := List.exists_cons_of_ne_nil hne
  obtain ⟨c, ct, hc0, hcc, hgc⟩ := gsChars_head_nz g t
    (hnz g (List.mem_cons_self g t))
  have hcol : collapseZeroRunChars (gsChars (g :: t)) = gsChars (g :: t) := by
    unfold collapseZeroRunChars
    rw [hgc, zrb_none_head c ct hc0, ← hgc]
    exact collapseScan_gs (g :: t) hne hnz
  rw [hcol, hgc, parseIPv6Main_fallback c ct zone hcc, ← hgc]
  unfold Address.parseIPv6Tail
  rw [v6Loop_groups (g :: t) ((gsChars (g :: t)).length + 1) [] none hne hlt
    (by simp only [List.length_nil, h8]; omega) (by omega)]
  dsimp only
  rw [if_neg (by simp)]
  rw [if_neg (by
    simp only [List.nil_append, bytesOfGroups_length, h8]
    omega)]
  rw [if_neg (by decide : ¬(none : Option Nat).isSome = true)]
  rw [List.nil_append]

/-- Case of the round trip where every hextet is zero: the rendering is the
bare "::", parsed as the unspecified address. -/
theorem parse_caseB (zone : String) :
    Address.parseIPv6Main
      (collapseZeroRunChars (gsChars (List.replicate 8 0))) zone =
      some ⟨List.replicate 16 0, zone⟩ := by
  rw [show collapseZeroRunChars (gsChars (List.replicate 8 0)) = [':', ':'] from
    by decide]
  unfold Address.parseIPv6Main
  split
  · rename_i rest heq
    rw [List.cons.injEq, List.cons.injEq] at heq
    rw [← heq.2.2]
    rw [if_pos rfl]
    simp [Address.ipv6Unspecified, Address.withZone, Address.isIPv6]
  · rename_i guard
    exact absurd rfl (fun hh => guard [] hh)

/-- Case of the round trip where the zero run starts at the first hextet and
further hextets follow it. -/
theorem parse_caseC (k : Nat) (post : List Nat) (zone : String)
    (hpost : post ≠ []) (hlen : k + 1 + post.length = 8)
    (hlt : ∀ g ∈ post, g < 65536)
    (hhead : ∀ p ps, post = p :: ps → p ≠ 0) :
    Address.parseIPv6Main
      (collapseZeroRunChars (gsChars (List.replicate (k + 1) 0 ++ post))) zone =
      some ⟨List.replicate (2 * (k + 1)) 0 ++ bytesOfGroups post, zone⟩ := by
  obtain ⟨p, ps, rfl⟩ := List.exists_cons_of_ne_nil hpost
  obtain ⟨d, dt, hd0, hdc, hgp⟩ := gsChars_head_nz p ps (hhead p ps rfl)
  have hjoin : gsChars (List.replicate (k + 1) 0 ++ p :: ps) =
      '0' :: (zcs k ++ ':' :: gsChars (p :: ps)) :=
    gsChars_zeros_mid k (p :: ps) hpost
  have hcol : collapseZeroRunChars
      (gsChars (List.replicate (k + 1) 0 ++ p :: ps)) =
      ':' :: ':' :: gsChars (p :: ps) := by
    unfold collapseZeroRunChars
    rw [hjoin, hgp, zrb_zcs_mid k d dt hd0]
    dsimp only
    rw [drop_zrun_mid k (d :: dt), ← hgp]
  rw [hcol]
  rw [parseIPv6Main_ell (gsChars (p :: ps)) zone (by rw [hgp]; simp)]
  unfold Address.parseIPv6Tail
  rw [v6Loop_groups (p :: ps) ((gsChars (p :: ps)).length + 1) [] (some 0)
    hpost hlt
    (by simp only [List.length_nil, List.length_cons] at hlen ⊢; omega)
    (by omega)]
  dsimp only
  rw [if_neg (by simp)]
  rw [if_pos (by
    simp only [List.nil_append, bytesOfGroups_length]
    simp only [List.length_cons] at hlen ⊢
    omega)]
  rw [List.nil_append, List.take_zero, List.drop_zero, List.nil_append]
  rw [show 16 - (bytesOfGroups (p :: ps)).length = 2 * (k + 1) from by
    rw [bytesOfGroups_length]
    simp only [List.length_cons] at hlen ⊢
    omega]

/-- Case of the round trip where the zero run reaches the last hextet. -/
theorem parse_caseD (pre : List Nat) (k : Nat) (zone : String)
    (hpre : pre ≠ []) (hlen : pre.length + (k + 1) = 8)
    (hlt : ∀ g ∈ pre, g < 65536) (hnz : ∀ g ∈ pre, g ≠ 0) :
    Address.parseIPv6Main
      (collapseZeroRunChars (gsChars (pre ++ List.replicate (k + 1) 0))) zone =
      some ⟨bytesOfGroups pre ++ List.replicate (2 * (k + 1)) 0, zone⟩ := by
  obtain ⟨g, t, rfl⟩ := List.exists_cons_of_ne_nil hpre
  obtain ⟨c, ct, hc0, hcc, hgc⟩ := gsChars_head_nz g t
    (hnz g (List.mem_cons_self g t))
  have hjoin : gsChars ((g :: t) ++ List.replicate (k + 1) 0) =
      gsChars (g :: t) ++ ':' :: ('0' :: zcs k) := by
    rw [gsChars_append (g :: t) (List.replicate (k + 1) 0) hpre
      (by simp [List.replicate_succ])]
    rw [gsChars_zeros_end k]
  have hcol : collapseZeroRunChars
      (gsChars ((g :: t) ++ List.replicate (k + 1) 0)) =
      gsChars (g :: t) ++ [':', ':'] := by
    unfold collapseZeroRunChars
    rw [hjoin, hgc, List.cons_append, zrb_none_head c _ hc0, ← List.cons_append,
      ← hgc]
    rw [collapseScan_pre (g :: t) ('0' :: zcs k) (1 + 2 * k) hpre hnz
      (zrb_zcs_end k)]
    rw [drop_zrun_end k]
  rw [hcol, hgc, List.cons_append, parseIPv6Main_fallback c _ zone hcc,
    ← List.cons_append, ← hgc]
  unfold Address.parseIPv6Tail
  rw [v6Loop_groupsEnd (g :: t) ((gsChars (g :: t) ++ [':', ':']).length + 1) []
    hpre hlt
    (by simp only [List.length_nil, List.length_cons] at hlen ⊢; omega)
    (by simp only [List.length_append, List.length_cons, List.length_nil]
        omega)]
  dsimp only
  rw [if_neg (by simp)]
  rw [if_pos (by
    simp only [List.nil_append, bytesOfGroups_length, List.length_nil]
    simp only [List.length_cons] at hlen ⊢
    omega)]
  simp only [List.nil_append, List.length_nil, Nat.zero_add]
  rw [show List.take (2 * (g :: t).length) (bytesOfGroups (g :: t)) =
      bytesOfGroups (g :: t) from by
    rw [← bytesOfGroups_length (g :: t)]
    exact List.take_length _]
  rw [show List.drop (2 * (g :: t).length) (bytesOfGroups (g :: t)) = []
    from by
    apply List.drop_eq_nil_of_le
    rw [bytesOfGroups_length]]
  rw [show 16 - (bytesOfGroups (g :: t)).length = 2 * (k + 1) from by
    rw [bytesOfGroups_length]
    simp only [List.length_cons] at hlen ⊢
    omega]
  rw [List.append_nil]

/-- Case of the round trip where the zero run sits between nonzero hextets. -/
theorem parse_caseE (pre : List Nat) (k : Nat) (post : List Nat) (zone : String)
    (hpre : pre ≠ []) (hpost : post ≠ [])
    (hlen : pre.length + (k + 1) + post.length = 8)
    (hltpre : ∀ g ∈ pre, g < 65536) (hltpost : ∀ g ∈ post, g < 65536)
    (hnz : ∀ g ∈ pre, g ≠ 0)
    (hhead : ∀ p ps, post = p :: ps → p ≠ 0) :
    Address.parseIPv6Main
      (collapseZeroRunChars
        (gsChars (pre ++ List.replicate (k + 1) 0 ++ post))) zone =
      some ⟨bytesOfGroups pre ++ List.replicate (2 * (k + 1)) 0 ++
        bytesOfGroups post, zone⟩ := by
  obtain ⟨g, t, rfl⟩ := List.exists_cons_of_ne_nil hpre
  obtain ⟨p, ps, rfl⟩ := List.exists_cons_of_ne_nil hpost
  obtain ⟨c, ct, hc0, hcc, hgc⟩ := gsChars_head_nz g t
    (hnz g (List.mem_cons_self g t))
  obtain ⟨d, dt, hd0, hdc, hgp⟩ := gsChars_head_nz p ps (hhead p ps rfl)
  have hjoin : gsChars ((g :: t) ++ List.replicate (k + 1) 0 ++ p :: ps) =
      gsChars (g :: t) ++ ':' :: ('0' :: (zcs k ++ ':' :: gsChars (p :: ps))) := by
    rw [List.append_assoc]
    rw [gsChars_append (g :: t) (List.replicate (k + 1) 0 ++ p :: ps) hpre
      (by simp [List.replicate_succ])]
    rw [gsChars_zeros_mid k (p :: ps) hpost]
  have hcol : collapseZeroRunChars
      (gsChars ((g :: t) ++ List.replicate (k + 1) 0 ++ p :: ps)) =
      gsChars (g :: t) ++ ':' :: ':' :: gsChars (p :: ps) := by
    unfold collapseZeroRunChars
    rw [hjoin, hgc, List.cons_append, zrb_none_head c _ hc0, ← List.cons_append,
      ← hgc]
    rw [hgp]
    rw [collapseScan_pre (g :: t) ('0' :: (zcs k ++ ':' :: d :: dt))
      (1 + 2 * k + 1) hpre hnz (zrb_zcs_mid k d dt hd0)]
    rw [drop_zrun_mid k (d :: dt), ← hgp]
  rw [hcol, hgc, List.cons_append, parseIPv6Main_fallback c _ zone hcc,
    ← List.cons_append, ← hgc]
  unfold Address.parseIPv6Tail
  rw [v6Loop_groupsMid (g :: t)
    ((gsChars (g :: t) ++ ':' :: ':' :: gsChars (p :: ps)).length + 1) []
    (p :: ps) hpre hpost hltpre hltpost
    (by simp only [List.length_nil, List.length_cons] at hlen ⊢; omega)
    (by simp only [List.length_append, List.length_cons]
        omega)]
  dsimp only
  rw [if_neg (by simp)]
  rw [if_pos (by
    simp only [List.nil_append, List.length_append, bytesOfGroups_length,
      List.length_nil]
    simp only [List.length_cons] at hlen ⊢
    omega)]
  simp only [List.nil_append, List.length_nil, Nat.zero_add]
  rw [show List.take (2 * (g :: t).length)
      (bytesOfGroups (g :: t) ++ bytesOfGroups (p :: ps)) =
      bytesOfGroups (g :: t) from
    List.take_left' (bytesOfGroups_length (g :: t))]
  rw [show List.drop (2 * (g :: t).length)
      (bytesOfGroups (g :: t) ++ bytesOfGroups (p :: ps)) =
      bytesOfGroups (p :: ps) from
    List.drop_left' (bytesOfGroups_length (g :: t))]
  rw [show 16 - (bytesOfGroups (g :: t) ++ bytesOfGroups (p :: ps)).length =
      2 * (k + 1) from by
    simp only [List.length_append, bytesOfGroups_length]
    simp only [List.length_cons] at hlen ⊢
    omega]

/-- parseIPv6Main inverts the collapsed rendering of any 16-byte address. -/
theorem parseIPv6Main_render (bytes : List Nat) (zone : String)
    (hlen : bytes.length = 16) (hb : ∀ b ∈ bytes, b < 256) :
    Address.parseIPv6Main
      (collapseZeroRunChars (gsChars (hexPairs bytes))) zone =
      some ⟨bytes, zone⟩ := by
  have h8 : (hexPairs bytes).length = 8 := by
    rw [hexPairs_length, hlen]
  have hglt : ∀ g ∈ hexPairs bytes, g < 65536 := hexPairs_lt bytes hb
  have hbog : bytesOfGroups (hexPairs bytes) = bytes :=
    hexPairs_sound bytes hb (by rw [hlen])
  rcases groups_split (hexPairs bytes) with hall |
    ⟨pre, k, post, hsp, hpre, hhead⟩
  · rw [parse_caseA (hexPairs bytes) zone h8 hglt hall, hbog]
  · have hlens : pre.length + (k + 1) + post.length = 8 := by
      rw [hsp] at h8
      simp only [List.length_append, List.length_replicate] at h8
      omega
    have hltpre : ∀ g ∈ pre, g < 65536 := by
      intro x hx
      apply hglt
      rw [hsp]
      exact List.mem_append_left _ (List.mem_append_left _ hx)
    have hltpost : ∀ g ∈ post, g < 65536 := by
      intro x hx
      apply hglt
      rw [hsp]
      exact List.mem_append_right _ hx
    have hexp : bytesOfGroups (hexPairs bytes) =
        bytesOfGroups pre ++ List.replicate (2 * (k + 1)) 0 ++
          bytesOfGroups post := by
      rw [hsp, bytesOfGroups_append, bytesOfGroups_append,
        bytesOfGroups_replicate]
    cases hpreE : pre with
    | nil =>
      cases hpostE : post with
      | nil =>
        have hk7 : k = 7 := by
          rw [hpreE, hpostE] at hlens
          simp at hlens
          omega
        have hgs : hexPairs bytes = List.replicate 8 0 := by
          rw [hsp, hpreE, hpostE, hk7]
          simp
        rw [hgs, parse_caseB zone]
        rw [hgs] at hbog
        rw [bytesOfGroups_replicate] at hbog
        rw [show (2 : Nat) * 8 = 16 from rfl] at hbog
        rw [hbog]
      | cons p ps =>
        have hgs : hexPairs bytes = List.replicate (k + 1) 0 ++ post := by
          rw [hsp, hpreE, List.nil_append, hpostE]
        rw [hpostE] at hgs
        rw [hgs]
        rw [parse_caseC k (p :: ps) zone (by simp)
          (by rw [hpreE] at hlens; rw [hpostE] at hlens; simpa using hlens)
          (by rw [hpostE] at hltpost; exact hltpost)
          (by rw [hpostE] at hhead; exact hhead)]
        rw [← hbog, hexp, hpreE, hpostE]
        simp [bytesOfGroups]
    | cons g t =>
      cases hpostE : post with
      | nil =>
        have hgs : hexPairs bytes = (g :: t) ++ List.replicate (k + 1) 0 := by
          rw [hsp, hpreE, hpostE, List.append_nil]
        rw [hgs]
        rw [parse_caseD (g :: t) k zone (by simp)
          (by rw [hpreE] at hlens; rw [hpostE] at hlens; simpa using hlens)
          (by rw [hpreE] at hltpre; exact hltpre)
          (by rw [hpreE] at hpre; exact hpre)]
        rw [← hbog, hexp, hpreE, hpostE]
        simp [bytesOfGroups]
      | cons p ps =>
        have hgs : hexPairs bytes =
            (g :: t) ++ List.replicate (k + 1) 0 ++ (p :: ps) := by
          rw [hsp, hpreE, hpostE]
        rw [hgs]
        rw [parse_caseE (g :: t) k (p :: ps) zone (by simp) (by simp)
          (by rw [hpreE] at hlens; rw [hpostE] at hlens; simpa using hlens)
          (by rw [hpreE] at hltpre; exact hltpre)
          (by rw [hpostE] at hltpost; exact hltpost)
          (by rw [hpreE] at hpre; exact hpre)
          (by rw [hpostE] at hhead; exact hhead)]
        rw [← hbog, hexp, hpreE, hpostE]

/-- Chars of a joined list come from the separator or from the pieces. -/
theorem mem_joinChars (sep : Char) : ∀ ps : List (List Char), ∀ c,
    c ∈ joinChars sep ps → c = sep ∨ ∃ p ∈ ps, c ∈ p := by
  intro ps
  induction ps with
  | nil => intro c hc; exact absurd hc (by simp [joinChars])
  | cons p qs ih =>
    intro c hc
    cases qs with
    | nil =>
      exact Or.inr ⟨p, List.mem_cons_self p [], hc⟩
    | cons q rest =>
      rw [show joinChars sep (p :: q :: rest) =
        p ++ sep :: joinChars sep (q :: rest) from rfl] at hc
      rw [List.mem_append] at hc
      rcases hc with hc | hc
      · exact Or.inr ⟨p, List.mem_cons_self p _, hc⟩
      · rcases List.mem_cons.mp hc with rfl | hc
        · exact Or.inl rfl
        · rcases ih c hc with h | ⟨pp, hpp, hcpp⟩
          · exact Or.inl h
          · exact Or.inr ⟨pp, List.mem_cons_of_mem p hpp, hcpp⟩

/-- Chars of a rendered hextet run are colons or hex digits. -/
theorem mem_gsChars (gs : List Nat) (c : Char) (hc : c ∈ gsChars gs) :
    c = ':' ∨ ∃ k, k < 16 ∧ c = digitChar k := by
  rcases mem_joinChars ':' (gs.map natToHexChars) c hc with h | ⟨p, hp, hcp⟩
  · exact Or.inl h
  · rw [List.mem_map] at hp
    obtain ⟨g, _, rfl⟩ := hp
    exact Or.inr (hexAux_digits (g + 1) g (by omega) c hcp)

/-- The scan only emits colons and chars of its input. -/
theorem collapseScan_mem : ∀ s : List Char, ∀ c, c ∈ collapseScan s →
    c = ':' ∨ c ∈ s := by
  intro s
  induction s with
  | nil => intro c hc; exact absurd hc (by simp [collapseScan])
  | cons x rest ih =>
    intro c hc
    by_cases hx : x = ':'
    · cases hzr : zeroRunBody rest with
      | none =>
        rw [hx, collapseScan_colon_none rest hzr] at hc
        rcases List.mem_cons.mp hc with rfl | hc
        · exact Or.inl rfl
        · rcases ih c hc with h | h
          · exact Or.inl h
          · exact Or.inr (List.mem_cons_of_mem x h)
      | some m =>
        rw [hx, collapseScan_colon_some rest m hzr] at hc
        rcases List.mem_cons.mp hc with rfl | hc
        · exact Or.inl rfl
        · rcases List.mem_cons.mp hc with rfl | hc
          · exact Or.inl rfl
          · exact Or.inr (List.mem_cons_of_mem x (List.mem_of_mem_drop hc))
    · rw [collapseScan_cons_ne x rest hx] at hc
      rcases List.mem_cons.mp hc with rfl | hc
      · exact Or.inr (List.mem_cons_self c rest)
      · rcases ih c hc with h | h
        · exact Or.inl h
        · exact Or.inr (List.mem_cons_of_mem x h)

/-- The collapse only emits colons and chars of its input. -/
theorem collapse_mem (s : List Char) (c : Char)
    (hc : c ∈ collapseZeroRunChars s) : c = ':' ∨ c ∈ s := by
  unfold collapseZeroRunChars at hc
  cases hzr : zeroRunBody s with
  | none =>
    rw [hzr] at hc
    exact collapseScan_mem s c hc
  | some m =>
    rw [hzr] at hc
    rcases List.mem_cons.mp hc with rfl | hc
    · exact Or.inl rfl
    · rcases List.mem_cons.mp hc with rfl | hc
      · exact Or.inl rfl
      · exact Or.inr (List.mem_of_mem_drop hc)

/-- Chars of the collapsed rendering are colons or hex digits. -/
theorem collapsed_chars (gs : List Nat) (c : Char)
    (hc : c ∈ collapseZeroRunChars (gsChars gs)) :
    c = ':' ∨ ∃ k, k < 16 ∧ c = digitChar k := by
  rcases collapse_mem (gsChars gs) c hc with h | h
  · exact Or.inl h
  · exact mem_gsChars gs c h

/-- The scan keeps at least one colon of its input. -/
theorem collapseScan_colon_kept : ∀ s : List Char, ':' ∈ s →
    ':' ∈ collapseScan s := by
  intro s
  induction s with
  | nil => intro h; exact absurd h (by simp)
  | cons x rest ih =>
    intro h
    by_cases hx : x = ':'
    · cases hzr : zeroRunBody rest with
      | none =>
        rw [hx, collapseScan_colon_none rest hzr]
        exact List.mem_cons_self ':' _
      | some m =>
        rw [hx, collapseScan_colon_some rest m hzr]
        exact List.mem_cons_self ':' _
    · rw [collapseScan_cons_ne x rest hx]
      rcases List.mem_cons.mp h with h | h
      · exact absurd h.symm hx
      · exact List.mem_cons_of_mem x (ih h)

/-- The collapsed rendering of two or more hextets contains a colon. -/
theorem collapsed_has_colon (g g2 : Nat) (t : List Nat) :
    ':' ∈ collapseZeroRunChars (gsChars (g :: g2 :: t)) := by
  unfold collapseZeroRunChars
  cases hzr : zeroRunBody (gsChars (g :: g2 :: t)) with
  | some m => exact List.mem_cons_self ':' _
  | none =>
    apply collapseScan_colon_kept
    rw [gsChars_cons]
    exact List.mem_append_right _ (List.mem_cons_self ':' _)

/-- Chars of a rendered dotted quad are dots or decimal digits. -/
theorem mem_dotted (bs : List Nat) (c : Char)
    (hc : c ∈ joinChars '.' (bs.map natToDecChars)) :
    c = '.' ∨ ∃ k, k < 10 ∧ c = digitChar k := by
  rcases mem_joinChars '.' (bs.map natToDecChars) c hc with h | ⟨p, hp, hcp⟩
  · exact Or.inl h
  · rw [List.mem_map] at hp
    obtain ⟨b, _, rfl⟩ := hp
    exact Or.inr (decAux_digits (b + 1) b (by omega) c hcp)

/-- Splitting a separator-free list changes nothing. -/
theorem splitOnChar_single (sep : Char) : ∀ l : List Char, sep ∉ l →
    splitOnChar sep l = [l] := by
  intro l
  induction l with
  | nil => intro _; rfl
  | cons c rest ih =>
    intro h
    unfold splitOnChar
    rw [if_neg (by
      intro hcs
      exact h (hcs ▸ List.mem_cons_self c rest))]
    rw [ih (fun hm => h (List.mem_cons_of_mem c hm))]

/-- Splitting after a separator-free prefix peels that prefix. -/
theorem splitOnChar_peel (sep : Char) : ∀ p r : List Char, sep ∉ p →
    splitOnChar sep (p ++ sep :: r) = p :: splitOnChar sep r := by
  intro p
  induction p with
  | nil =>
    intro r _
    rw [List.nil_append]
    conv_lhs => unfold splitOnChar
    rw [if_pos rfl]
  | cons c t ih =>
    intro r h
    rw [List.cons_append]
    conv_lhs => unfold splitOnChar
    rw [if_neg (by
      intro hcs
      exact h (hcs ▸ List.mem_cons_self c t))]
    rw [ih r (fun hm => h (List.mem_cons_of_mem c hm))]

/-- Splitting inverts joining when no piece contains the separator. -/
theorem splitOnChar_joinChars (sep : Char) : ∀ ps : List (List Char),
    ps ≠ [] → (∀ p ∈ ps, sep ∉ p) →
    splitOnChar sep (joinChars sep ps) = ps := by
  intro ps
  induction ps with
  | nil => intro h; exact absurd rfl h
  | cons p qs ih =>
    intro _ h
    cases qs with
    | nil =>
      rw [show joinChars sep [p] = p from rfl]
      exact splitOnChar_single sep p (h p (List.mem_cons_self p []))
    | cons q rest =>
      rw [show joinChars sep (p :: q :: rest) =
        p ++ sep :: joinChars sep (q :: rest) from rfl]
      rw [splitOnChar_peel sep p _ (h p (List.mem_cons_self p _))]
      rw [ih (List.cons_ne_nil q rest)
        (fun x hx => h x (List.mem_cons_of_mem p hx))]

/-- The octet loop of the top-level IPv4 parser inverts decimal rendering. -/
theorem parseIPv4Octets_render : ∀ bs : List Nat, (∀ b ∈ bs, b < 256) →
    parseIPv4Octets (bs.map natToDecChars) = some bs := by
  intro bs
  induction bs with
  | nil => intro _; rfl
  | cons b t ih =>
    intro hb
    rw [List.map_cons]
    conv_lhs => unfold parseIPv4Octets
    rw [jsParseIntChars_dec b]
    dsimp only
    rw [if_neg (by
      have := hb b (List.mem_cons_self b t)
      omega)]
    rw [ih (fun x hx => hb x (List.mem_cons_of_mem b hx))]
    simp

/-- The top-level IPv4 parser inverts the dotted-quad rendering. -/
theorem parseIPv4Address_render (bs : List Nat) (h4 : bs.length = 4)
    (hb : ∀ b ∈ bs, b < 256) :
    Address.parseIPv4Address ⟨joinChars '.' (bs.map natToDecChars)⟩ =
      some ⟨bs, ""⟩ := by
  unfold Address.parseIPv4Address
  rw [if_neg (by
    intro hcont
    rw [List.elem_iff] at hcont
    rcases mem_dotted bs '%' hcont with h | ⟨k, hk, hck⟩
    · exact absurd h (by decide)
    · exact absurd hck.symm (digit_facts k (by omega)).2.2.2.1)]
  rw [splitOnChar_joinChars '.' (bs.map natToDecChars)
    (by
      intro hmap
      rw [List.map_eq_nil] at hmap
      rw [hmap] at h4
      simp at h4)
    (by
      intro p hp hmem
      rw [List.mem_map] at hp
      obtain ⟨b, _, rfl⟩ := hp
      obtain ⟨k, hk, hck⟩ := decAux_digits (b + 1) b (by omega) '.' hmem
      exact absurd hck.symm (digit_facts k (by omega)).2.2.1)]
  rw [if_neg (by simp [h4])]
  rw [parseIPv4Octets_render bs hb]

/-- The dotted-quad rendering starts with a decimal digit. -/
theorem dotted_head (b : Nat) (bs : List Nat) :
    ∃ k t, k < 10 ∧
      joinChars '.' ((b :: bs).map natToDecChars) = digitChar k :: t := by
  have hne := decAux_ne_nil (b + 1) b (by omega)
  obtain ⟨c, t0, hct⟩ := List.exists_cons_of_ne_nil hne
  obtain ⟨k, hk, hck⟩ := decAux_digits (b + 1) b (by omega) c
    (by rw [hct]; exact List.mem_cons_self _ _)
  cases bs with
  | nil =>
    refine ⟨k, t0, hk, ?_⟩
    rw [show joinChars '.' ([b].map natToDecChars) = natToDecChars b from rfl]
    unfold natToDecChars
    rw [hct, hck]
  | cons b2 t2 =>
    refine ⟨k, t0 ++ '.' :: joinChars '.' ((b2 :: t2).map natToDecChars), hk, ?_⟩
    rw [show joinChars '.' ((b :: b2 :: t2).map natToDecChars) =
      natToDecChars b ++ '.' :: joinChars '.' ((b2 :: t2).map natToDecChars)
      from rfl]
    unfold natToDecChars
    rw [hct, hck, List.cons_append]

/-- String(i) renders a nonnegative integer in plain decimal. -/
theorem jsIntRepr_nonneg (i : Int) (h : 0 ≤ i) :
    jsIntRepr i = ⟨natToDecChars i.toNat⟩ := by
  unfold jsIntRepr
  rw [if_neg (by omega)]
  rfl

/-- parseInt inverts decimal rendering of a nonnegative integer. -/
theorem jsParseIntChars_int (i : Int) (h : 0 ≤ i) :
    jsParseIntChars (natToDecChars i.toNat) = some i := by
  rw [jsParseIntChars_dec i.toNat]
  rw [Int.toNat_of_nonneg h]

/-- findIdx? skips a hit-free prefix. -/
theorem findIdx?_skip (p : Char → Bool) (s t : List Char)
    (hs : ∀ c ∈ s, p c = false) :
    List.findIdx? p (s ++ t) =
      (List.findIdx? p t).map (fun i => i + s.length) := by
  rw [List.findIdx?_append]
  rw [List.findIdx?_eq_none_iff.mpr hs]
  rfl

/-- findIdx? hits at the head. -/
theorem findIdx?_head (p : Char → Bool) (c : Char) (t : List Char)
    (hc : p c = true) : List.findIdx? p (c :: t) = some 0 := by
  rw [List.findIdx?_cons, if_pos hc]

/-- lastIndexOf at the only occurrence of the char. -/
theorem lastIndexOfChar_unique (s t : List Char) (hs : ':' ∉ s)
    (ht : ':' ∉ t) :
    lastIndexOfChar ':' (s ++ ':' :: t) = some s.length := by
  unfold lastIndexOfChar
  rw [show (s ++ ':' :: t).reverse = t.reverse ++ ':' :: s.reverse from by simp]
  rw [findIdx?_skip _ t.reverse (':' :: s.reverse) (by
    intro c hc
    rw [List.mem_reverse] at hc
    simp only [decide_eq_false_iff_not]
    intro hcc
    exact ht (hcc ▸ hc))]
  rw [findIdx?_head _ ':' s.reverse (by simp)]
  simp only [Option.map_some']
  rw [show (s ++ ':' :: t).length - 1 - (0 + t.reverse.length) =
    s.length from by
    simp only [List.length_append, List.length_cons, List.length_reverse]
    omega]

/-- No char of the collapsed rendering is a percent sign. -/
theorem collapsed_no_pct (bytes : List Nat) (c : Char)
    (hc : c ∈ collapseZeroRunChars (gsChars (hexPairs bytes))) : c ≠ '%' := by
  rcases collapsed_chars (hexPairs bytes) c hc with h | ⟨k, hk, hck⟩
  · rw [h]; decide
  · rw [hck]; exact (digit_facts k hk).2.2.2.1

/-- parseIPv6Address on a zone-free collapsed rendering. -/
theorem parseIPv6Address_render_nozone (bytes : List Nat)
    (hlen : bytes.length = 16) (hb : ∀ b ∈ bytes, b < 256) :
    Address.parseIPv6Address
      ⟨collapseZeroRunChars (gsChars (hexPairs bytes))⟩ =
      some ⟨bytes, ""⟩ := by
  unfold Address.parseIPv6Address
  rw [show (⟨collapseZeroRunChars (gsChars (hexPairs bytes))⟩ : String).data =
    collapseZeroRunChars (gsChars (hexPairs bytes)) from rfl]
  rw [List.findIdx?_eq_none_iff.mpr (by
    intro c hc
    simp only [decide_eq_false_iff_not]
    exact collapsed_no_pct bytes c hc)]
  exact parseIPv6Main_render bytes "" hlen hb

/-- parseIPv6Address splits the rendered zone back off. -/
theorem parseIPv6Address_render_zone (bytes : List Nat) (zone : String)
    (hlen : bytes.length = 16) (hb : ∀ b ∈ bytes, b < 256) (hz : zone ≠ "") :
    Address.parseIPv6Address
      ⟨collapseZeroRunChars (gsChars (hexPairs bytes)) ++ '%' :: zone.data⟩ =
      some ⟨bytes, zone⟩ := by
  unfold Address.parseIPv6Address
  rw [show (⟨collapseZeroRunChars (gsChars (hexPairs bytes)) ++
    '%' :: zone.data⟩ : String).data =
    collapseZeroRunChars (gsChars (hexPairs bytes)) ++ '%' :: zone.data
    from rfl]
  rw [findIdx?_skip _ (collapseZeroRunChars (gsChars (hexPairs bytes)))
    ('%' :: zone.data) (by
      intro c hc
      simp only [decide_eq_false_iff_not]
      exact collapsed_no_pct bytes c hc)]
  rw [findIdx?_head _ '%' zone.data (by simp)]
  simp only [Option.map_some']
  rw [show (collapseZeroRunChars (gsChars (hexPairs bytes)) ++
      '%' :: zone.data).drop
      (0 + (collapseZeroRunChars (gsChars (hexPairs bytes))).length + 1) =
      zone.data from by
    rw [show collapseZeroRunChars (gsChars (hexPairs bytes)) ++
      '%' :: zone.data =
      (collapseZeroRunChars (gsChars (hexPairs bytes)) ++ ['%']) ++ zone.data
      from by simp]
    exact List.drop_left' (by
      simp only [List.length_append, List.length_cons, List.length_nil]
      omega)]
  rw [show (⟨zone.data⟩ : String) = zone from rfl]
  rw [if_neg hz]
  rw [show (0 + (collapseZeroRunChars (gsChars (hexPairs bytes))).length) =
    (collapseZeroRunChars (gsChars (hexPairs bytes))).length from by omega]
  rw [List.take_left]
  exact parseIPv6Main_render bytes zone hlen hb

/-- parseAddress dispatches on a colon. -/
theorem parseAddress_v6 (L : List Char) (hcolon : ':' ∈ L) :
    Address.parseAddress ⟨L⟩ = Address.parseIPv6Address ⟨L⟩ := by
  unfold Address.parseAddress
  rw [if_pos (List.elem_iff.mpr hcolon)]

/-- parseAddress dispatches on a dot when there is no colon. -/
theorem parseAddress_v4 (L : List Char) (hnc : ':' ∉ L) (hd : '.' ∈ L) :
    Address.parseAddress ⟨L⟩ = Address.parseIPv4Address ⟨L⟩ := by
  unfold Address.parseAddress
  rw [if_neg (fun h => hnc (List.elem_iff.mp h))]
  rw [if_pos (List.elem_iff.mpr hd)]

/-- Address.toString of a 16-byte address that is not IPv4-mapped. -/
theorem toString_v6 (a : Address) (h16 : a.addressBytes.length = 16)
    (hnm : a.isIPv4MappedIPv6 = false) :
    a.toString = ⟨collapseZeroRunChars (gsChars (hexPairs a.addressBytes)) ++
      (if a.zone = "" then [] else '%' :: a.zone.data)⟩ := by
  unfold Address.toString
  rw [if_neg (by simp [Address.isIPv4, h16])]
  rw [if_pos (by simp [Address.isIPv6, h16])]
  dsimp only
  simp only [hnm, Bool.false_eq_true, if_false]
  rw [show joinChars ':' (List.map natToHexChars (hexPairs a.addressBytes)) =
    gsChars (hexPairs a.addressBytes) from rfl]
  by_cases hz : a.zone = ""
  · rw [if_neg (by simp [hz]), if_pos hz, List.append_nil]
  · rw [if_pos hz, if_neg hz]

/-- Address.toString of a 4-byte address. -/
theorem toString_v4 (a : Address) (h4 : a.addressBytes.length = 4) :
    a.toString = ⟨joinChars '.' (a.addressBytes.map natToDecChars)⟩ := by
  unfold Address.toString
  rw [if_pos (by simp [Address.isIPv4, h4])]

/-- parseAddrPort on the bracketed rendering. -/
theorem parseAddrPort_bracket (mid pcs : List Char) (ip : Address) (port : Int)
    (hmid : ':' ∈ mid) (hnb : ']' ∉ mid)
    (hip : Address.parseAddress ⟨mid⟩ = some ip)
    (hpt : jsParseIntChars pcs = some port)
    (hp0 : ¬(port < 0 ∨ 65535 < port)) :
    AddressPort.parseAddrPort ⟨'[' :: mid ++ ']' :: ':' :: pcs⟩ =
      some ⟨ip, port⟩ := by
  unfold AddressPort.parseAddrPort
  rw [show (⟨'[' :: mid ++ ']' :: ':' :: pcs⟩ : String).data =
    '[' :: mid ++ ']' :: ':' :: pcs from rfl]
  dsimp only
  have hcont : ('[' :: mid ++ ']' :: ':' :: pcs).contains ':' = true :=
    List.elem_iff.mpr (List.mem_cons_of_mem '[' (List.mem_append_left _ hmid))
  rw [if_neg (not_not_intro hcont)]
  rw [if_pos (show ('[' :: mid ++ ']' :: ':' :: pcs).head? = some '[' from rfl)]
  rw [show ('[' :: mid ++ ']' :: ':' :: pcs : List Char) =
    ('[' :: mid) ++ ']' :: ':' :: pcs from rfl]
  rw [findIdx?_skip _ ('[' :: mid) (']' :: ':' :: pcs) (by
    intro c hc
    simp only [decide_eq_false_iff_not]
    rcases List.mem_cons.mp hc with rfl | hc
    · decide
    · intro hcc
      exact hnb (hcc ▸ hc))]
  rw [findIdx?_head _ ']' (':' :: pcs) (by simp)]
  simp only [Option.map_some']
  rw [show (('[' :: mid) ++ ']' :: ':' :: pcs).drop 1 =
    mid ++ ']' :: ':' :: pcs from rfl]
  rw [show 0 + ('[' :: mid).length - 1 = mid.length from by
    simp only [List.length_cons]
    omega]
  rw [List.take_left]
  rw [show 0 + ('[' :: mid).length + 2 = (('[' :: mid) ++ [']', ':']).length
    from by
    simp only [List.length_append, List.length_cons, List.length_nil]
    omega]
  rw [show (('[' :: mid) ++ ']' :: ':' :: pcs : List Char) =
    (('[' :: mid) ++ [']', ':']) ++ pcs from by simp]
  rw [List.drop_left]
  rw [hip]
  dsimp only
  rw [hpt]
  dsimp only
  rw [if_neg hp0]

/-- parseAddrPort on the plain (unbracketed, single-colon) rendering. -/
theorem parseAddrPort_plain (s pcs : List Char) (ip : Address) (port : Int)
    (hs : ':' ∉ s) (hsh : s.head? ≠ some '[') (hpcs : ':' ∉ pcs)
    (hip : Address.parseAddress ⟨s⟩ = some ip)
    (hpt : jsParseIntChars pcs = some port)
    (hp0 : ¬(port < 0 ∨ 65535 < port)) :
    AddressPort.parseAddrPort ⟨s ++ ':' :: pcs⟩ = some ⟨ip, port⟩ := by
  unfold AddressPort.parseAddrPort
  rw [show (⟨s ++ ':' :: pcs⟩ : String).data = s ++ ':' :: pcs from rfl]
  dsimp only
  have hcont : (s ++ ':' :: pcs).contains ':' = true :=
    List.elem_iff.mpr (List.mem_append_right _ (List.mem_cons_self ':' pcs))
  rw [if_neg (not_not_intro hcont)]
  rw [if_neg (by
    rw [List.head?_append]
    cases hh : s.head? with
    | none => simp
    | some c =>
      have : c ≠ '[' := by
        intro hcc
        exact hsh (by rw [hh, hcc])
      simp [this])]
  rw [if_neg (by
    rw [show (s ++ ':' :: pcs : List Char).countP (fun c => c = ':') =
      s.countP (fun c => c = ':') + (':' :: pcs).countP (fun c => c = ':')
      from List.countP_append _ s (':' :: pcs)]
    rw [List.countP_eq_zero.mpr (by
      intro c hc
      simp only [decide_eq_true_eq]
      intro hcc
      exact hs (hcc ▸ hc))]
    rw [show (':' :: pcs : List Char).countP (fun c => c = ':') =
      pcs.countP (fun c => c = ':') + 1 from by
      rw [List.countP_cons_of_pos]
      simp]
    rw [List.countP_eq_zero.mpr (by
      intro c hc
      simp only [decide_eq_true_eq]
      intro hcc
      exact hpcs (hcc ▸ hc))]
    omega)]
  rw [lastIndexOfChar_unique s pcs hs hpcs]
  dsimp only
  rw [List.take_left]
  rw [show (s ++ ':' :: pcs : List Char) = (s ++ [':']) ++ pcs from by simp]
  rw [show s.length + 1 = (s ++ [':'] : List Char).length from by simp]
  rw [List.drop_left]
  rw [hip]
  dsimp only
  rw [hpt]
  dsimp only
  rw [if_neg hp0]

/-- The collapsed rendering of a 16-byte address contains a colon. -/
theorem collapsed_render_colon (bytes : List Nat) (hlen : bytes.length = 16) :
    ':' ∈ collapseZeroRunChars (gsChars (hexPairs bytes)) := by
  have h8 : (hexPairs bytes).length = 8 := by rw [hexPairs_length, hlen]
  cases hp : hexPairs bytes with
  | nil => rw [hp] at h8; simp at h8
  | cons g r =>
    cases r with
    | nil => rw [hp] at h8; simp at h8
    | cons g2 t => exact collapsed_has_colon g g2 t

/-- No char of the collapsed rendering is a closing bracket. -/
theorem collapsed_no_rbracket (bytes : List Nat) (c : Char)
    (hc : c ∈ collapseZeroRunChars (gsChars (hexPairs bytes))) : c ≠ ']' := by
  rcases collapsed_chars (hexPairs bytes) c hc with h | ⟨k, hk, hck⟩
  · rw [h]; decide
  · rw [hck]; exact (digit_facts k hk).2.2.2.2.1

/-- The dotted rendering contains no colon. -/
theorem dotted_no_colon (bs : List Nat) :
    ':' ∉ joinChars '.' (bs.map natToDecChars) := by
  intro h
  rcases mem_dotted bs ':' h with h | ⟨k, hk, hck⟩
  · exact absurd h (by decide)
  · exact absurd hck.symm (digit_facts k (by omega)).2.1

/-- The dotted rendering of two or more octets contains a dot. -/
theorem dotted_has_dot (b1 b2 : Nat) (rest : List Nat) :
    '.' ∈ joinChars '.' ((b1 :: b2 :: rest).map natToDecChars) := by
  rw [show joinChars '.' ((b1 :: b2 :: rest).map natToDecChars) =
    natToDecChars b1 ++ '.' :: joinChars '.' ((b2 :: rest).map natToDecChars)
    from rfl]
  exact List.mem_append_right _ (List.mem_cons_self '.' _)

/-- Decimal renderings contain no colon. -/
theorem dec_no_colon (n : Nat) : ':' ∉ natToDecChars n := by
  intro h
  obtain ⟨k, hk, hck⟩ := decAux_digits (n + 1) n (by omega) ':' h
  exact absurd hck.symm (digit_facts k (by omega)).2.1

/-- Appending strings appends their chars. -/
theorem string_append_mk (a b : List Char) : (⟨a⟩ ++ ⟨b⟩ : String) = ⟨a ++ b⟩ :=
  rfl

/-- Round trip of AddressPort text for a 16-byte address that is not
IPv4-mapped, whose zone has no closing bracket, with a port in range. -/
theorem roundTrip_v6 (bytes : List Nat) (zone : String) (port : Int)
    (h16 : bytes.length = 16) (hb : ∀ b ∈ bytes, b < 256)
    (hnm : Address.isIPv4MappedIPv6 ⟨bytes, zone⟩ = false)
    (hzb : ']' ∉ zone.data)
    (hport0 : 0 ≤ port) (hport1 : port ≤ 65535) :
    AddressPort.parseAddrPort (AddressPort.toString ⟨⟨bytes, zone⟩, port⟩) =
      some ⟨⟨bytes, zone⟩, port⟩ := by
  have hts : AddressPort.toString ⟨⟨bytes, zone⟩, port⟩ =
      ⟨'[' :: (collapseZeroRunChars (gsChars (hexPairs bytes)) ++
        (if zone = "" then [] else '%' :: zone.data)) ++
        ']' :: ':' :: natToDecChars port.toNat⟩ := by
    unfold AddressPort.toString
    rw [if_neg (by simp [AddressPort.isValid, Address.isValid, h16])]
    dsimp only
    rw [if_pos ⟨by simp [Address.isIPv6, h16], by simp [hnm]⟩]
    rw [toString_v6 ⟨bytes, zone⟩ h16 hnm]
    rw [jsIntRepr_nonneg port hport0]
    rw [show ("[" : String) = ⟨['[']⟩ from rfl]
    rw [show ("]:" : String) = ⟨[']', ':']⟩ from rfl]
    rw [string_append_mk, string_append_mk, string_append_mk]
    apply congrArg
    simp
  rw [hts]
  by_cases hz : zone = ""
  · subst hz
    rw [if_pos rfl, List.append_nil]
    exact parseAddrPort_bracket (collapseZeroRunChars (gsChars (hexPairs bytes)))
      (natToDecChars port.toNat) ⟨bytes, ""⟩ port
      (collapsed_render_colon bytes h16)
      (fun hmem => collapsed_no_rbracket bytes ']' hmem rfl)
      (by
        rw [parseAddress_v6 _ (collapsed_render_colon bytes h16)]
        exact parseIPv6Address_render_nozone bytes h16 hb)
      (jsParseIntChars_int port hport0)
      (by omega)
  · rw [if_neg hz]
    exact parseAddrPort_bracket
      (collapseZeroRunChars (gsChars (hexPairs bytes)) ++ '%' :: zone.data)
      (natToDecChars port.toNat) ⟨bytes, zone⟩ port
      (List.mem_append_left _ (collapsed_render_colon bytes h16))
      (by
        intro hmem
        rcases List.mem_append.mp hmem with h | h
        · exact collapsed_no_rbracket bytes ']' h rfl
        · rcases List.mem_cons.mp h with h | h
          · exact absurd h.symm (by decide)
          · exact hzb h)
      (by
        rw [parseAddress_v6 _
          (List.mem_append_left _ (collapsed_render_colon bytes h16))]
        exact parseIPv6Address_render_zone bytes zone h16 hb hz)
      (jsParseIntChars_int port hport0)
      (by omega)

/-- Round trip of AddressPort text for a 4-byte address with a port in
range. -/
theorem roundTrip_v4 (bytes : List Nat) (port : Int)
    (h4 : bytes.length = 4) (hb : ∀ b ∈ bytes, b < 256)
    (hport0 : 0 ≤ port) (hport1 : port ≤ 65535) :
    AddressPort.parseAddrPort (AddressPort.toString ⟨⟨bytes, ""⟩, port⟩) =
      some ⟨⟨bytes, ""⟩, port⟩ := by
  have hts : AddressPort.toString ⟨⟨bytes, ""⟩, port⟩ =
      ⟨joinChars '.' (bytes.map natToDecChars) ++
        ':' :: natToDecChars port.toNat⟩ := by
    unfold AddressPort.toString
    rw [if_neg (by simp [AddressPort.isValid, Address.isValid, h4])]
    dsimp only
    rw [if_neg (by
      intro hcond
      have h6 := hcond.1
      rw [show (⟨bytes, ""⟩ : Address).isIPv6 = false from by
        simp [Address.isIPv6, h4]] at h6
      exact absurd h6 (by simp))]
    rw [toString_v4 ⟨bytes, ""⟩ h4]
    rw [jsIntRepr_nonneg port hport0]
    rw [show (":" : String) = ⟨[':']⟩ from rfl]
    rw [string_append_mk, string_append_mk]
    apply congrArg
    simp
  rw [hts]
  obtain ⟨b1, r1, rfl⟩ : ∃ b1 r1, bytes = b1 :: r1 := by
    cases bytes with
    | nil => simp at h4
    | cons b1 r1 => exact ⟨b1, r1, rfl⟩
  obtain ⟨b2, r2, rfl⟩ : ∃ b2 r2, r1 = b2 :: r2 := by
    cases r1 with
    | nil => simp at h4
    | cons b2 r2 => exact ⟨b2, r2, rfl⟩
  obtain ⟨k, t, hk, hdh⟩ := dotted_head b1 (b2 :: r2)
  exact parseAddrPort_plain
    (joinChars '.' ((b1 :: b2 :: r2).map natToDecChars))
    (natToDecChars port.toNat) ⟨b1 :: b2 :: r2, ""⟩ port
    (dotted_no_colon (b1 :: b2 :: r2))
    (by
      rw [hdh]
      intro hsome
      rw [List.head?_cons, Option.some.injEq] at hsome
      exact absurd hsome (digit_facts k (by omega)).2.2.2.2.2.1)
    (dec_no_colon port.toNat)
    (by
      rw [parseAddress_v4 _ (dotted_no_colon (b1 :: b2 :: r2))
        (dotted_has_dot b1 b2 r2)]
      exact parseIPv4Address_render (b1 :: b2 :: r2) h4 hb)
    (jsParseIntChars_int port hport0)
    (by omega)

/-- C1 (amended): the AddressPort text round trip
parseAddrPort(x.toString()) = x holds for every valid AddressPort x whose
port lies in [0, 65535], whose address bytes are bytes, whose address is NOT
an IPv4-mapped IPv6 address, whose zone is absent when the address is IPv4,
and whose zone contains no closing bracket. The original claim fails for
IPv4-mapped IPv6 addresses: their unbracketed rendering has more than one
colon and parseAddrPort rejects it (claim_C1_counterexample). -/
theorem claim_C1_round_trip (x : AddressPort)
    (hvalid : x.isValid = true)
    (hbytes : ∀ b ∈ x.ip.addressBytes, b < 256)
    (hport0 : 0 ≤ x.port) (hport1 : x.port ≤ 65535)
    (hnm : x.ip.isIPv4MappedIPv6 = false)
    (hz4 : x.ip.addressBytes.length = 4 → x.ip.zone = "")
    (hzb : ']' ∉ x.ip.zone.data) :
    AddressPort.parseAddrPort x.toString = some x := by
  obtain ⟨⟨bytes, zone⟩, port⟩ := x
  have hlen : bytes.length = 4 ∨ bytes.length = 16 := by
    simp only [AddressPort.isValid, Address.isValid,
      decide_eq_true_eq] at hvalid
    exact hvalid
  rcases hlen with h4 | h16
  · have hz : zone = "" := hz4 h4
    subst hz
    exact roundTrip_v4 bytes port h4 hbytes hport0 hport1
  · exact roundTrip_v6 bytes zone port h16 hbytes hnm hzb hport0 hport1

/-- C1 counterexample: the AddressPort holding the IPv4-mapped IPv6 address
::ffff:1.2.3.4 with port 443 is valid, but its text "::ffff:1.2.3.4:443"
(rendered without brackets) is rejected by parseAddrPort, because the
unbracketed form must contain exactly one colon. So
parseAddrPort(x.toString()) does not return x for every valid x. -/
theorem claim_C1_counterexample :
    (AddressPort.isValid
      ⟨⟨[0, 0, 0, 0, 0, 0, 0, 0, 0, 0, 255, 255, 1, 2, 3, 4], ""⟩, 443⟩ =
      true) ∧
    (Address.isIPv4MappedIPv6
      ⟨[0, 0, 0, 0, 0, 0, 0, 0, 0, 0, 255, 255, 1, 2, 3, 4], ""⟩ = true) ∧
    (AddressPort.toString
      ⟨⟨[0, 0, 0, 0, 0, 0, 0, 0, 0, 0, 255, 255, 1, 2, 3, 4], ""⟩, 443⟩ =
      "::ffff:1.2.3.4:443") ∧
    (AddressPort.parseAddrPort
      (AddressPort.toString
        ⟨⟨[0, 0, 0, 0, 0, 0, 0, 0, 0, 0, 255, 255, 1, 2, 3, 4], ""⟩, 443⟩) =
      none) := by
  decide

/-- Witness for C1 at the address 2001:db8::1 with zone eth0 and port 8080. -/
theorem claim_C1_round_trip_witness :
    AddressPort.parseAddrPort
      (AddressPort.toString
        ⟨⟨[32, 1, 13, 184, 0, 0, 0, 0, 0, 0, 0, 0, 0, 0, 0, 1], "eth0"⟩,
          8080⟩) =
      some ⟨⟨[32, 1, 13, 184, 0, 0, 0, 0, 0, 0, 0, 0, 0, 0, 0, 1], "eth0"⟩,
        8080⟩ :=
  claim_C1_round_trip
    ⟨⟨[32, 1, 13, 184, 0, 0, 0, 0, 0, 0, 0, 0, 0, 0, 0, 1], "eth0"⟩, 8080⟩
    (by decide) (by decide) (by decide) (by decide) (by decide) (by decide)
    (by decide)
